import Mathlib

/-!
Verification of the tree-view store in `src/components/TreeView.tsx`.

The component keeps a flat map from string identifiers to node records plus a
designated root identifier, and mutates it with pure snapshot-to-snapshot
operations.  We embed the map as an association list with JavaScript-object
semantics (first match wins on lookup, in-place overwrite on insert, append on
fresh insert), embed each operation from the source, and relate the operations
to an inductive rose-tree model of well-formed tree states.  Operations that
can throw at runtime (lookup of a missing identifier followed by a field
access) are embedded as `Option`-returning functions, `none` standing for the
crash; the unbounded recursions and loops of the source are given explicit
fuel, `none` also standing for nontermination, and the fuel is shown
sufficient on well-formed trees.
-/

set_option maxHeartbeats 1000000
set_option linter.dupNamespace false

namespace TreeView

/-- The tri-state selection flag (`Selected` type in the source). -/
inductive Selected : Type where
  | Unselected : Selected
  | Partial : Selected
  | Selected : Selected
deriving DecidableEq, Repr

/-- A node record (`Node` type in the source). -/
structure Node : Type where
  key : String
  data : String
  children : List String
  level : Nat
  isOpen : Bool
  selectedState : Selected
  parent : Option String
deriving DecidableEq, Repr

/-- The node map (`NodeMap`): a JavaScript object keyed by identifier,
embedded as an association list. -/
abbrev NodeMap : Type := List (String × Node)

/-- Lookup: first entry with the given key, as JavaScript property access. -/
def NodeMap.find : NodeMap → String → Option Node
  | [], _ => none
  | (k', v) :: rest, k => if k' = k then some v else NodeMap.find rest k

/-- Assignment `m[k] = v`: overwrite in place if present, else append. -/
def NodeMap.insert : NodeMap → String → Node → NodeMap
  | [], k, v => [(k, v)]
  | (k', v') :: rest, k, v =>
      if k' = k then (k, v) :: rest else (k', v') :: NodeMap.insert rest k v

/-- `delete m[k]`. -/
def NodeMap.erase : NodeMap → String → NodeMap
  | [], _ => []
  | (k', v) :: rest, k =>
      if k' = k then NodeMap.erase rest k else (k', v) :: NodeMap.erase rest k

/-- The list of keys of the map, in storage order. -/
def NodeMap.keyList (m : NodeMap) : List String :=
  m.map Prod.fst

/-- Number of entries of the map. -/
def NodeMap.size (m : NodeMap) : Nat :=
  m.length

/-- The whole tree state (`TreeState` in the source). -/
structure TreeState : Type where
  nodes : NodeMap
  rootId : String
deriving DecidableEq

/-- `setClosed` from the source. -/
def setClosed (n : Node) : Node :=
  { n with isOpen := false }

/-- `setOpen` from the source. -/
def setOpen (n : Node) : Node :=
  { n with isOpen := true }

mutual

/-- The recursive body of `modifyRecursively` (and of the subtree phase of
`setSelected`): apply `upd` to the node stored at `key`, store it back, then
recurse into the children of the updated record.  The source recursion is
unbounded; `fuel` bounds the recursion depth, `none` meaning the source would
not terminate (or hit a missing key and crash). -/
def modifyRec (upd : Node → Node) : Nat → NodeMap → String → Option NodeMap
  | 0, _, _ => none
  | fuel + 1, m, key =>
      match m.find key with
      | none => none
      | some n => modifyRecL upd fuel (m.insert key (upd n)) (upd n).children
termination_by fuel _ _ => (fuel, 0)

/-- Sequential processing of a child list by `modifyRec`. -/
def modifyRecL (upd : Node → Node) : Nat → NodeMap → List String → Option NodeMap
  | _, m, [] => some m
  | fuel, m, k :: ks =>
      match modifyRec upd fuel m k with
      | none => none
      | some m' => modifyRecL upd fuel m' ks
termination_by fuel _ ks => (fuel, ks.length + 1)

end

/-- `modifyRecursively` from the source (only the key of `parent` is used). -/
def modifyRecursively (tree : TreeState) (parent : Node) (upd : Node → Node) :
    Option TreeState :=
  (modifyRec upd (tree.nodes.size + 1) tree.nodes parent.key).map
    (fun m => { tree with nodes := m })

/-- `foldRecursively` from the source. -/
def foldRecursively (tree : TreeState) (parent : Node) : Option TreeState :=
  modifyRecursively tree parent setClosed

/-- `expandRecursively` from the source. -/
def expandRecursively (tree : TreeState) (parent : Node) : Option TreeState :=
  modifyRecursively tree parent setOpen

/-- `addChild` from the source.  The fresh identifier produced by
`crypto.randomUUID()` is passed in explicitly; the record it builds uses the
uuid both as key and as label, always starts `Unselected`, and is appended to
the parent's child list.  `none` models the undefined behaviour when the
parent's key is absent from the map. -/
def addChild (tree : TreeState) (parent : Node) (uuid : String) :
    Option TreeState :=
  let newChild : Node :=
    { key := uuid, data := uuid, children := [], level := parent.level + 1,
      isOpen := true, selectedState := Selected.Unselected,
      parent := some parent.key }
  match tree.nodes.find parent.key with
  | none => none
  | some rec0 =>
      some { tree with
              nodes := ((tree.nodes.insert uuid newChild).insert parent.key
                { rec0 with children := parent.children ++ [uuid] }) }

/-- `toggleNode` from the source. -/
def toggleNode (tree : TreeState) (node : Node) : Option TreeState :=
  match tree.nodes.find node.key with
  | none => none
  | some rec0 =>
      some { tree with
              nodes := tree.nodes.insert node.key
                { rec0 with isOpen := !node.isOpen } }

/-- The subtree-deletion loop of `deleteNode`: pop a key, read its children
from the current map, delete the key, push the children.  The source pushes on
and pops from the end of an array; the head of the list plays that role, so
pushed children are reversed.  Missing keys contribute no children (`?.` and
`?? []` in the source). -/
def deleteLoop : Nat → NodeMap → List String → Option NodeMap
  | _, m, [] => some m
  | 0, _, _ :: _ => none
  | fuel + 1, m, key :: rest =>
      let children := match m.find key with
        | some n => n.children
        | none => []
      deleteLoop fuel (m.erase key) (children.reverse ++ rest)

/-- `deleteNode` from the source: reject deleting the root, unlink the target
from its parent's child list, then delete the whole subtree. -/
def deleteNode (tree : TreeState) (node : Node) : Option TreeState :=
  if node.key = tree.rootId then some tree
  else
    match node.parent with
    | none => none
    | some pk =>
        match tree.nodes.find pk with
        | none => none
        | some parent =>
            let m1 := tree.nodes.insert pk
              { parent with children := parent.children.filter (fun k => k ≠ node.key) }
            (deleteLoop (tree.nodes.size + 1) m1 [node.key]).map
              (fun m => { tree with nodes := m })

/-- The tri-state aggregation used by the upward pass of `setSelected`:
`Selected` if every child state is `Selected`, `Unselected` if every child
state is `Unselected`, `Partial` otherwise. -/
def aggSel (states : List Selected) : Selected :=
  if states.all (fun s => s = Selected.Selected) then Selected.Selected
  else if states.all (fun s => s = Selected.Unselected) then Selected.Unselected
  else Selected.Partial

/-- The toggled value `setSelected` assigns: the opposite binary value of the
target's current state (a `Partial` target toggles to `Selected`). -/
def toggleTarget (s : Selected) : Selected :=
  if s = Selected.Selected then Selected.Unselected else Selected.Selected

/-- The upward pass of `setSelected`.  `orig` is the snapshot the loop reads
ancestor records from (`tree.nodes` in the source); the accumulator map is the
one child states are read from and updated records are written to.  The walk
stops when the current record's `parent` is `undefined` or falsy (the empty
string) or names a key missing from `orig` (`while (curr)` over an undefined
lookup). -/
def walkUp (orig : NodeMap) : Nat → NodeMap → Option Node → Option NodeMap
  | _, m, none => some m
  | 0, _, some _ => none
  | fuel + 1, m, some curr =>
      match curr.children.mapM (fun k => (m.find k).map Node.selectedState) with
      | none => none
      | some states =>
          walkUp orig fuel
            (m.insert curr.key { curr with selectedState := aggSel states })
            (match curr.parent with
             | some p => if p = "" then none else orig.find p
             | none => none)

/-- `setSelected` from the source: toggle the target, assign the toggled value
to the target's whole subtree, then recompute each ancestor's state bottom-up
with `aggSel`. -/
def setSelected (tree : TreeState) (node : Node) : Option TreeState :=
  let v := toggleTarget node.selectedState
  match modifyRec (fun n => { n with selectedState := v })
      (tree.nodes.size + 1) tree.nodes node.key with
  | none => none
  | some m1 =>
      match node.parent with
      | none => some { tree with nodes := m1 }
      | some p =>
          (walkUp tree.nodes (tree.nodes.size + 1) m1 (tree.nodes.find p)).map
            (fun m => { tree with nodes := m })

/-- `editNodeData` from the source. -/
def editNodeData (tree : TreeState) (node : Node) (data : String) :
    Option TreeState :=
  match tree.nodes.find node.key with
  | none => none
  | some rec0 =>
      some { tree with nodes := tree.nodes.insert node.key { rec0 with data := data } }

/-- `nodeArrToMap` from the source. -/
def nodeArrToMap (nodes : List Node) : NodeMap :=
  nodes.foldl (fun m n => m.insert n.key n) []

/-- The filtered traversal loop of `deleteSelected`: pop a record, keep only
its non-`Selected` children (looked up in the original snapshot), push the
kept child records and append the popped record—its child list replaced by the
kept keys—to the survivor array. -/
def delSelLoop (orig : NodeMap) : Nat → List Node → List Node → Option (List Node)
  | _, acc, [] => some acc
  | 0, _, _ :: _ => none
  | fuel + 1, acc, curr :: rest =>
      match curr.children.mapM (fun k => orig.find k) with
      | none => none
      | some childNodes =>
          let kept := childNodes.filter
            (fun c => c.selectedState ≠ Selected.Selected)
          delSelLoop orig fuel
            (acc ++ [{ curr with children := kept.map Node.key }])
            (kept.reverse ++ rest)

/-- `deleteSelected` from the source: reject when the root is `Selected`,
otherwise prune every `Selected` child subtree top-down and rebuild the map
from the surviving records. -/
def deleteSelected (tree : TreeState) : Option TreeState :=
  match tree.nodes.find tree.rootId with
  | none => none
  | some rootNode =>
      if rootNode.selectedState = Selected.Selected then some tree
      else
        (delSelLoop tree.nodes (tree.nodes.size + 1) [] [rootNode]).map
          (fun arr => { tree with nodes := nodeArrToMap arr })

/-- The collection loop of `setRoot`: pop a key, copy its record verbatim into
the accumulator, push its children. -/
def collectLoop (orig : NodeMap) : Nat → NodeMap → List String → Option NodeMap
  | _, acc, [] => some acc
  | 0, _, _ :: _ => none
  | fuel + 1, acc, k :: rest =>
      match orig.find k with
      | none => none
      | some n => collectLoop orig fuel (acc.insert n.key n) (n.children.reverse ++ rest)

/-- `setRoot` from the source: keep exactly the chosen node and its
descendants, untouched, and make the chosen key the root identifier. -/
def setRoot (tree : TreeState) (root : Node) : Option TreeState :=
  (collectLoop tree.nodes (tree.nodes.size + 1) [] [root.key]).map
    (fun m => { nodes := m, rootId := root.key })

/-!
## The rose-tree model of well-formed tree states

A reachable tree state is, up to the flat encoding, a rose tree: every node
carries its record fields, child order is the child-list order, and the
`children`/`parent` cross references are derived from the shape.  `flatten`
produces the node map of such a tree; the spec's structural invariants
(unique keys, acyclicity, parent/child consistency) hold by construction on
`flatten t none` when the key list of `t` has no duplicates.
-/

/-- A well-formed tree, structurally. -/
inductive RTree : Type where
  | mk : String → String → Nat → Bool → Selected → List RTree → RTree

/-- Key of the tree's top node. -/
def RTree.key : RTree → String
  | .mk k _ _ _ _ _ => k

/-- Label of the tree's top node. -/
def RTree.data : RTree → String
  | .mk _ d _ _ _ _ => d

/-- Level field of the tree's top node. -/
def RTree.level : RTree → Nat
  | .mk _ _ lv _ _ _ => lv

/-- Open flag of the tree's top node. -/
def RTree.isOpen : RTree → Bool
  | .mk _ _ _ op _ _ => op

/-- Selection state of the tree's top node. -/
def RTree.sel : RTree → Selected
  | .mk _ _ _ _ s _ => s

/-- Child subtrees of the tree's top node. -/
def RTree.children : RTree → List RTree
  | .mk _ _ _ _ _ cs => cs

/-- The record the flat encoding stores for the top node of `t`, whose parent
identifier is `par`. -/
def toNode (t : RTree) (par : Option String) : Node :=
  { key := t.key, data := t.data, children := t.children.map RTree.key,
    level := t.level, isOpen := t.isOpen, selectedState := t.sel, parent := par }

mutual

/-- All keys of the tree, in preorder. -/
def RTree.keys : RTree → List String
  | .mk k _ _ _ _ cs => k :: keysF cs

/-- All keys of a forest. -/
def keysF : List RTree → List String
  | [] => []
  | c :: cs => c.keys ++ keysF cs

end

/-- Number of nodes of the tree. -/
def RTree.size (t : RTree) : Nat :=
  t.keys.length

/-- Number of nodes of a forest. -/
def sizeF (cs : List RTree) : Nat :=
  (keysF cs).length

mutual

/-- The flat node map of the tree `t` whose top node's parent identifier is
`par`. -/
def flatten : RTree → Option String → NodeMap
  | t@(.mk k _ _ _ _ cs), par => (k, toNode t par) :: flattenF cs (some k)

/-- The flat node maps of a forest of sibling subtrees, concatenated. -/
def flattenF : List RTree → Option String → NodeMap
  | [], _ => []
  | c :: cs, par => flatten c par ++ flattenF cs par

end

/-- The tree state encoding the well-formed tree `t`. -/
def toTreeState (t : RTree) : TreeState :=
  { nodes := flatten t none, rootId := t.key }

/-- `AncPath t ancs s`: the subtree `s` occurs in `t`, and `ancs` lists its
proper ancestors bottom-up (parent first, `t` last; empty iff `s = t`). -/
inductive AncPath : RTree → List RTree → RTree → Prop where
  | refl (t : RTree) : AncPath t [] t
  | step {t c : RTree} {ancs : List RTree} {s : RTree} :
      c ∈ t.children → AncPath c ancs s → AncPath t (ancs ++ [t]) s

/-- `Occurs s t`: `s` is a subtree of `t` (possibly `t` itself). -/
def Occurs (s t : RTree) : Prop :=
  ∃ ancs, AncPath t ancs s

/-- The parent identifier a node with proper-ancestor list `ancs` carries in
the flat encoding, `top` being the parent identifier of the whole tree. -/
def parOf (ancs : List RTree) (top : Option String) : Option String :=
  match ancs with
  | [] => top
  | a :: _ => some a.key

/-- Example leaf used to exercise the theorems on concrete inputs. -/
def exLeafA : RTree := RTree.mk "a" "A" 1 true Selected.Unselected []

/-- Example leaf. -/
def exLeafB : RTree := RTree.mk "b" "B" 1 true Selected.Unselected []

/-- Example two-child tree. -/
def exT : RTree := RTree.mk "r" "Root" 0 true Selected.Unselected [exLeafA, exLeafB]

/-- Example tree whose root is `Selected`. -/
def exSelRoot : RTree := RTree.mk "r" "Root" 0 true Selected.Selected []

/-- Example `Selected` leaf. -/
def exSelLeafA : RTree := RTree.mk "a" "A" 1 true Selected.Selected []

/-- Example tree with a `Partial` root over one `Selected` and one
`Unselected` leaf. -/
def exC2 : RTree := RTree.mk "r" "Root" 0 true Selected.Partial [exSelLeafA, exLeafB]

/-- Example leaf two levels deep. -/
def exX : RTree := RTree.mk "x" "X" 2 true Selected.Unselected []

/-- Example middle node. -/
def exMid : RTree := RTree.mk "m" "M" 1 true Selected.Unselected [exX]

/-- Example three-level chain. -/
def exC7 : RTree := RTree.mk "r" "Root" 0 true Selected.Unselected [exMid]

/-- Example `Unselected` leaf, the deletion target of a `Partial` parent. -/
def exDelS : RTree := RTree.mk "s" "S" 2 true Selected.Unselected []

/-- Example `Selected` leaf, sibling of the deletion target. -/
def exDelD : RTree := RTree.mk "d" "D" 2 true Selected.Selected []

/-- Example `Partial` parent whose only non-`Selected` child is `exDelS`. -/
def exDelA : RTree := RTree.mk "p" "P" 1 true Selected.Partial [exDelS, exDelD]

/-- Example tree for the deletion claims. -/
def exDelT : RTree := RTree.mk "r" "Root" 0 true Selected.Unselected [exDelA]

/-- The flat record of `exSelRoot`: a lone `Selected` root. -/
def litSelNode : Node :=
  { key := "r", data := "Root", children := [], level := 0, isOpen := true,
    selectedState := Selected.Selected, parent := none }

/-- The flat tree state of `exSelRoot`, written out literally. -/
def litSelRoot : TreeState :=
  { nodes := [("r", litSelNode)], rootId := "r" }

/-- The flat record of the root of `exC7`. -/
def litC7r : Node :=
  { key := "r", data := "Root", children := ["m"], level := 0, isOpen := true,
    selectedState := Selected.Unselected, parent := none }

/-- The flat record of the middle node of `exC7`. -/
def litC7m : Node :=
  { key := "m", data := "M", children := ["x"], level := 1, isOpen := true,
    selectedState := Selected.Unselected, parent := some "r" }

/-- The flat record of the leaf of `exC7`, two levels deep. -/
def litC7x : Node :=
  { key := "x", data := "X", children := [], level := 2, isOpen := true,
    selectedState := Selected.Unselected, parent := some "m" }

/-- The flat tree state of `exC7`, written out literally. -/
def litC7 : TreeState :=
  { nodes := [("r", litC7r), ("m", litC7m), ("x", litC7x)], rootId := "r" }

/-- The flat record of the `Partial` root of `exC2`. -/
def litC2r : Node :=
  { key := "r", data := "Root", children := ["a", "b"], level := 0,
    isOpen := true, selectedState := Selected.Partial, parent := none }

/-- The flat record of the `Selected` leaf of `exC2`. -/
def litC2a : Node :=
  { key := "a", data := "A", children := [], level := 1, isOpen := true,
    selectedState := Selected.Selected, parent := some "r" }

/-- The flat record of the `Unselected` leaf of `exC2`. -/
def litC2b : Node :=
  { key := "b", data := "B", children := [], level := 1, isOpen := true,
    selectedState := Selected.Unselected, parent := some "r" }

/-- The flat tree state of `exC2`, written out literally. -/
def litC2 : TreeState :=
  { nodes := [("r", litC2r), ("a", litC2a), ("b", litC2b)], rootId := "r" }

/-- The `Option Node` value the upward pass of `setSelected` starts from,
for a target whose proper-ancestor list is `ancs`: the flat record of the
target's parent, or `none` for the root. -/
def ancEntry (ancs : List RTree) : Option Node :=
  match ancs with
  | [] => none
  | a :: rest => some (toNode a (parOf rest none))

/-- Specification of `modifyRec` on the flat encoding of a well-formed
subtree whose entries have already been transformed by `g`: the run succeeds,
applies `upd` on top of `g` on the subtree's keys, and leaves everything else
untouched. -/
def MasterStmt (fuel : Nat) : Prop :=
  ∀ (s : RTree) (par : Option String) (upd g : Node → Node) (m : NodeMap),
    (∀ n, (upd n).children = n.children) →
    (∀ n, (g n).children = n.children) →
    s.size ≤ fuel → s.keys.Nodup →
    (∀ k ∈ s.keys, m.find k = ((flatten s par).find k).map g) →
    ∃ m', modifyRec upd fuel m s.key = some m' ∧
      (∀ k ∈ s.keys,
        m'.find k = ((flatten s par).find k).map (fun n => upd (g n))) ∧
      (∀ k, k ∉ s.keys → m'.find k = m.find k) ∧
      m'.keyList = m.keyList

/-- Specification of a `modifyRec` run whose updater fixes every record the
traversal meets: the map comes back unchanged. -/
def NoopStmt (fuel : Nat) : Prop :=
  ∀ (s : RTree) (par : Option String) (upd g : Node → Node) (m : NodeMap),
    (∀ n, (g n).children = n.children) →
    (∀ n, upd (g n) = g n) →
    s.size ≤ fuel → s.keys.Nodup →
    (∀ k ∈ s.keys, m.find k = ((flatten s par).find k).map g) →
    modifyRec upd fuel m s.key = some m

/-! ## Association-list map lemmas -/

@[simp] theorem find_nil (k : String) : NodeMap.find [] k = none := rfl

theorem find_cons (k' : String) (v : Node) (m : NodeMap) (k : String) :
    NodeMap.find ((k', v) :: m) k =
      if k' = k then some v else NodeMap.find m k := rfl

@[simp] theorem find_insert_self (m : NodeMap) (k : String) (v : Node) :
    (m.insert k v).find k = some v := by
  induction m with
  | nil => simp [NodeMap.insert, NodeMap.find]
  | cons p rest ih =>
      obtain ⟨k', v'⟩ := p
      by_cases h : k' = k
      · simp [NodeMap.insert, h, NodeMap.find]
      · simp [NodeMap.insert, h, NodeMap.find, ih]

theorem find_insert_ne (m : NodeMap) (k : String) (v : Node) (k' : String)
    (h : k ≠ k') : (m.insert k v).find k' = m.find k' := by
  induction m with
  | nil => simp [NodeMap.insert, NodeMap.find, h]
  | cons p rest ih =>
      obtain ⟨k₀, v₀⟩ := p
      by_cases h₀ : k₀ = k
      · subst h₀; simp [NodeMap.insert, NodeMap.find, h]
      · simp [NodeMap.insert, h₀, NodeMap.find, ih]

theorem insert_noop (m : NodeMap) (k : String) (v : Node)
    (h : m.find k = some v) : m.insert k v = m := by
  induction m with
  | nil => simp [NodeMap.find] at h
  | cons p rest ih =>
      obtain ⟨k₀, v₀⟩ := p
      by_cases h₀ : k₀ = k
      · subst h₀
        simp [NodeMap.find] at h
        simp [NodeMap.insert, h]
      · simp [NodeMap.find, h₀] at h
        simp [NodeMap.insert, h₀, ih h]

theorem keyList_insert_of_mem (m : NodeMap) (k : String) (v : Node)
    (h : k ∈ m.keyList) : (m.insert k v).keyList = m.keyList := by
  induction m with
  | nil => simp [NodeMap.keyList] at h
  | cons p rest ih =>
      obtain ⟨k₀, v₀⟩ := p
      by_cases h₀ : k₀ = k
      · simp [NodeMap.insert, h₀, NodeMap.keyList]
      · have h' : k ∈ NodeMap.keyList rest := by
          rcases List.mem_cons.mp h with h1 | h1
          · exact absurd h1.symm h₀
          · exact h1
        have h2 := ih h'
        simp only [NodeMap.insert, h₀, if_false, NodeMap.keyList] at h2 ⊢
        simp [h2]

theorem keyList_insert_of_not_mem (m : NodeMap) (k : String) (v : Node)
    (h : k ∉ m.keyList) : (m.insert k v).keyList = m.keyList ++ [k] := by
  induction m with
  | nil => simp [NodeMap.insert, NodeMap.keyList]
  | cons p rest ih =>
      obtain ⟨k₀, v₀⟩ := p
      simp [NodeMap.keyList] at h ih
      by_cases h₀ : k₀ = k
      · exact absurd h₀.symm h.1
      · simp [NodeMap.insert, h₀, NodeMap.keyList, ih h.2]

theorem find_eq_none_iff (m : NodeMap) (k : String) :
    m.find k = none ↔ k ∉ m.keyList := by
  induction m with
  | nil => simp [NodeMap.find, NodeMap.keyList]
  | cons p rest ih =>
      obtain ⟨k₀, v₀⟩ := p
      by_cases h₀ : k₀ = k
      · simp [NodeMap.find, h₀, NodeMap.keyList]
      · simp [NodeMap.find, h₀, NodeMap.keyList, ih, Ne.symm h₀]

theorem find_isSome_iff (m : NodeMap) (k : String) :
    (m.find k).isSome ↔ k ∈ m.keyList := by
  rw [Option.isSome_iff_ne_none, Ne, find_eq_none_iff, not_not]

theorem find_isSome_of_mem {m : NodeMap} {k : String} (h : k ∈ m.keyList) :
    ∃ v, m.find k = some v := by
  have := (find_isSome_iff m k).2 h
  exact Option.isSome_iff_exists.1 this

theorem find_eq_none_of_not_mem {m : NodeMap} {k : String}
    (h : k ∉ m.keyList) : m.find k = none :=
  (find_eq_none_iff m k).2 h

@[simp] theorem find_erase_self (m : NodeMap) (k : String) :
    (m.erase k).find k = none := by
  induction m with
  | nil => simp [NodeMap.erase, NodeMap.find]
  | cons p rest ih =>
      obtain ⟨k₀, v₀⟩ := p
      by_cases h₀ : k₀ = k
      · simpa [NodeMap.erase, h₀] using ih
      · simp [NodeMap.erase, h₀, NodeMap.find, ih]

theorem find_erase_ne (m : NodeMap) (k k' : String) (h : k ≠ k') :
    (m.erase k).find k' = m.find k' := by
  induction m with
  | nil => simp [NodeMap.erase]
  | cons p rest ih =>
      obtain ⟨k₀, v₀⟩ := p
      by_cases h₀ : k₀ = k
      · subst h₀
        simpa [NodeMap.erase, NodeMap.find, h] using ih
      · simp [NodeMap.erase, h₀, NodeMap.find, ih]

theorem find_append_left {m₁ : NodeMap} (m₂ : NodeMap) {k : String} {v : Node}
    (h : m₁.find k = some v) : NodeMap.find (m₁ ++ m₂) k = some v := by
  induction m₁ with
  | nil => simp [NodeMap.find] at h
  | cons p rest ih =>
      obtain ⟨k₀, v₀⟩ := p
      by_cases h₀ : k₀ = k
      · simp [NodeMap.find, h₀] at h ⊢; exact h
      · simp [NodeMap.find, h₀] at h ⊢; exact ih h

theorem find_append_right {m₁ : NodeMap} (m₂ : NodeMap) {k : String}
    (h : m₁.find k = none) : NodeMap.find (m₁ ++ m₂) k = m₂.find k := by
  induction m₁ with
  | nil => simp
  | cons p rest ih =>
      obtain ⟨k₀, v₀⟩ := p
      by_cases h₀ : k₀ = k
      · simp [NodeMap.find, h₀] at h
      · simp [NodeMap.find, h₀] at h ⊢; exact ih h

theorem keyList_append (m₁ m₂ : NodeMap) :
    NodeMap.keyList (m₁ ++ m₂) = m₁.keyList ++ m₂.keyList := by
  simp [NodeMap.keyList]

theorem keyList_length (m : NodeMap) : m.keyList.length = m.size := by
  simp [NodeMap.keyList, NodeMap.size]

/-! ## Rose-tree lemmas -/

/-- Structural induction over rose trees with member induction hypotheses. -/
theorem RTree.ind {motive : RTree → Prop}
    (h : ∀ k d lv op s cs,
      (∀ c ∈ cs, motive c) → motive (RTree.mk k d lv op s cs)) :
    ∀ t, motive t
  | .mk k d lv op s cs => h k d lv op s cs (fun c hc => RTree.ind h c)
termination_by t => sizeOf t
decreasing_by
  have := List.sizeOf_lt_of_mem hc
  simp only [RTree.mk.sizeOf_spec]
  omega

@[simp] theorem keysF_nil : keysF [] = [] := by
  simp [keysF]

@[simp] theorem keysF_cons (c : RTree) (cs : List RTree) :
    keysF (c :: cs) = c.keys ++ keysF cs := by
  simp [keysF]

@[simp] theorem keys_mk (k d : String) (lv : Nat) (op : Bool) (s : Selected)
    (cs : List RTree) : (RTree.mk k d lv op s cs).keys = k :: keysF cs := by
  simp [RTree.keys]

theorem keys_eq (t : RTree) : t.keys = t.key :: keysF t.children := by
  cases t; simp [RTree.key, RTree.children]

theorem key_mem_keys (t : RTree) : t.key ∈ t.keys := by
  rw [keys_eq]; exact List.mem_cons_self _ _

theorem keysF_append (l₁ l₂ : List RTree) :
    keysF (l₁ ++ l₂) = keysF l₁ ++ keysF l₂ := by
  induction l₁ with
  | nil => simp
  | cons c cs ih => simp [ih]

theorem keysF_reverse_perm (l : List RTree) :
    (keysF l.reverse).Perm (keysF l) := by
  induction l with
  | nil => simp
  | cons c cs ih =>
      rw [List.reverse_cons, keysF_append, keysF_cons]
      have h1 : (keysF cs.reverse ++ keysF [c]).Perm
          (keysF [c] ++ keysF cs.reverse) := List.perm_append_comm
      have h2 := List.Perm.append_left (keysF [c]) ih
      simpa using h1.trans h2

theorem mem_keysF_of_mem {c : RTree} {cs : List RTree} (hc : c ∈ cs)
    {k : String} (hk : k ∈ c.keys) : k ∈ keysF cs := by
  induction cs with
  | nil => cases hc
  | cons c₀ cs' ih =>
      rcases List.mem_cons.mp hc with h | h
      · subst h; simp [hk]
      · simp [ih h]

theorem mem_keysF_iff {cs : List RTree} {k : String} :
    k ∈ keysF cs ↔ ∃ c ∈ cs, k ∈ c.keys := by
  induction cs with
  | nil => simp
  | cons c₀ cs' ih =>
      simp only [keysF_cons, List.mem_append, ih, List.mem_cons]
      constructor
      · rintro (h | ⟨c, hc, hk⟩)
        · exact ⟨c₀, Or.inl rfl, h⟩
        · exact ⟨c, Or.inr hc, hk⟩
      · rintro ⟨c, hc | hc, hk⟩
        · subst hc; exact Or.inl hk
        · exact Or.inr ⟨c, hc, hk⟩

@[simp] theorem flattenF_nil (par : Option String) : flattenF [] par = [] := by
  simp [flattenF]

@[simp] theorem flattenF_cons (c : RTree) (cs : List RTree)
    (par : Option String) :
    flattenF (c :: cs) par = flatten c par ++ flattenF cs par := by
  simp [flattenF]

theorem flatten_eq (t : RTree) (par : Option String) :
    flatten t par = (t.key, toNode t par) :: flattenF t.children (some t.key) := by
  cases t; simp [flatten, RTree.key, RTree.children]

theorem flattenF_keyList_aux (cs : List RTree)
    (ih : ∀ c ∈ cs, ∀ par, (flatten c par).keyList = c.keys) :
    ∀ q, (flattenF cs q).keyList = keysF cs := by
  induction cs with
  | nil => simp [NodeMap.keyList]
  | cons c cs' ihc =>
      intro q
      rw [flattenF_cons, keyList_append, ih c (List.mem_cons_self _ _) q,
        ihc (fun c hc par => ih c (List.mem_cons_of_mem _ hc) par) q,
        keysF_cons]

theorem flatten_keyList (t : RTree) :
    ∀ par, (flatten t par).keyList = t.keys := by
  induction t using RTree.ind with
  | h k d lv op s cs ih =>
      intro par
      rw [flatten_eq, keys_eq]
      have hF := flattenF_keyList_aux (RTree.mk k d lv op s cs).children
        (by simpa [RTree.children] using ih)
        (some (RTree.mk k d lv op s cs).key)
      simp only [NodeMap.keyList, List.map_cons] at hF ⊢
      rw [hF]

theorem flattenF_keyList (cs : List RTree) (q : Option String) :
    (flattenF cs q).keyList = keysF cs :=
  flattenF_keyList_aux cs (fun c _ par => flatten_keyList c par) q

theorem find_flatten_none {t : RTree} {k : String} (h : k ∉ t.keys)
    (par : Option String) : (flatten t par).find k = none :=
  find_eq_none_of_not_mem (by rw [flatten_keyList]; exact h)

theorem find_flattenF_none {cs : List RTree} {k : String} (h : k ∉ keysF cs)
    (q : Option String) : (flattenF cs q).find k = none :=
  find_eq_none_of_not_mem (by rw [flattenF_keyList]; exact h)

theorem flatten_find_isSome {t : RTree} {k : String} (h : k ∈ t.keys)
    (par : Option String) : ∃ v, (flatten t par).find k = some v :=
  find_isSome_of_mem (by rw [flatten_keyList]; exact h)

theorem flattenF_find_of_mem {cs : List RTree} (hnd : (keysF cs).Nodup)
    {c : RTree} (hc : c ∈ cs) {k : String} (hk : k ∈ c.keys)
    (q : Option String) : (flattenF cs q).find k = (flatten c q).find k := by
  induction cs with
  | nil => cases hc
  | cons c₀ cs' ih =>
      rw [keysF_cons, List.nodup_append] at hnd
      rcases List.mem_cons.mp hc with h | h
      · subst h
        obtain ⟨v, hv⟩ := flatten_find_isSome hk q
        rw [flattenF_cons, find_append_left _ hv, hv]
      · have hnot : k ∉ c₀.keys := fun hmem =>
          hnd.2.2 hmem (mem_keysF_of_mem h hk)
        rw [flattenF_cons, find_append_right _ (find_flatten_none hnot q)]
        exact ih hnd.2.1 h

theorem flatten_length (t : RTree) (par : Option String) :
    (flatten t par).length = t.size := by
  have := flatten_keyList t par
  have h2 : (flatten t par).keyList.length = t.keys.length := by rw [this]
  simpa [NodeMap.keyList, RTree.size] using h2

theorem size_eq (t : RTree) : t.size = 1 + sizeF t.children := by
  rw [RTree.size, keys_eq, List.length_cons, sizeF]
  omega

theorem sizeF_cons (c : RTree) (cs : List RTree) :
    sizeF (c :: cs) = c.size + sizeF cs := by
  simp [sizeF, RTree.size]

theorem sizeF_append (l₁ l₂ : List RTree) :
    sizeF (l₁ ++ l₂) = sizeF l₁ + sizeF l₂ := by
  simp [sizeF, keysF_append]

theorem sizeF_reverse (l : List RTree) : sizeF l.reverse = sizeF l := by
  simp [sizeF, (keysF_reverse_perm l).length_eq]

theorem size_pos (t : RTree) : 1 ≤ t.size := by
  rw [size_eq]; omega

/-! ## Ancestor-path lemmas -/

theorem ancPath_nil {t s : RTree} (h : AncPath t [] s) : s = t := by
  generalize hl : ([] : List RTree) = l at h
  cases h with
  | refl => rfl
  | step hc hp => exact absurd hl.symm (by simp)

theorem ancPath_cases {t : RTree} {p : List RTree} {w : RTree}
    (h : AncPath t p w) :
    (p = [] ∧ w = t) ∨
      ∃ c, c ∈ t.children ∧ ∃ p', AncPath c p' w ∧ p = p' ++ [t] := by
  cases h with
  | refl => exact Or.inl ⟨rfl, rfl⟩
  | step hc hp => exact Or.inr ⟨_, hc, _, hp, rfl⟩

theorem ancPath_cons {t a s : RTree} {ancs : List RTree}
    (h : AncPath t (a :: ancs) s) : s ∈ a.children ∧ AncPath t ancs a := by
  suffices h' : ∀ {t0 : RTree} {l : List RTree} {s0 : RTree}, AncPath t0 l s0 →
      ∀ {a0 : RTree} {ancs0 : List RTree}, l = a0 :: ancs0 →
        s0 ∈ a0.children ∧ AncPath t0 ancs0 a0 by
    exact h' h rfl
  intro t0 l s0 hp
  induction hp with
  | refl u => intro a0 ancs0 h0; cases h0
  | step hc hp ih =>
      rename_i t' c ancs' s'
      intro a0 ancs0 h0
      cases ancs' with
      | nil =>
          have hs : s' = c := ancPath_nil hp
          have h1 : a0 = t' ∧ ancs0 = [] := by
            constructor
            · simpa using congrArg (fun l => l.headD t') h0.symm
            · simpa using congrArg List.tail h0.symm
          subst hs
          rcases h1 with ⟨h1a, h1b⟩
          subst h1a; subst h1b
          exact ⟨hc, AncPath.refl _⟩
      | cons b ancs'' =>
          have h1 : a0 = b ∧ ancs0 = ancs'' ++ [t'] := by
            constructor
            · simpa using congrArg (fun l => l.headD b) h0.symm
            · simpa using congrArg List.tail h0.symm
          rcases h1 with ⟨h1a, h1b⟩
          subst h1a; subst h1b
          obtain ⟨hmem, hpath⟩ := ih rfl
          exact ⟨hmem, AncPath.step hc hpath⟩

theorem ancPath_keys_subset {t : RTree} {ancs : List RTree} {s : RTree}
    (h : AncPath t ancs s) : s.keys ⊆ t.keys := by
  induction h with
  | refl u => exact fun k hk => hk
  | step hc hp ih =>
      rename_i t' c ancs' s'
      intro k hk
      rw [keys_eq]
      exact List.mem_cons_of_mem _ (mem_keysF_of_mem hc (ih hk))

theorem ancPath_key_mem {t : RTree} {ancs : List RTree} {s : RTree}
    (h : AncPath t ancs s) : s.key ∈ t.keys :=
  ancPath_keys_subset h (key_mem_keys s)

theorem occurs_keys_subset {s t : RTree} (h : Occurs s t) : s.keys ⊆ t.keys := by
  obtain ⟨ancs, hp⟩ := h
  exact ancPath_keys_subset hp

theorem nodup_keysF_of_mem {cs : List RTree} (hnd : (keysF cs).Nodup)
    {c : RTree} (hc : c ∈ cs) : c.keys.Nodup := by
  induction cs with
  | nil => cases hc
  | cons c₀ cs' ih =>
      rw [keysF_cons, List.nodup_append] at hnd
      rcases List.mem_cons.mp hc with h | h
      · subst h; exact hnd.1
      · exact ih hnd.2.1 h

theorem nodup_keys_child {t : RTree} (hnd : t.keys.Nodup) {c : RTree}
    (hc : c ∈ t.children) :
    (keysF t.children).Nodup ∧ t.key ∉ keysF t.children ∧ c.keys.Nodup := by
  rw [keys_eq, List.nodup_cons] at hnd
  exact ⟨hnd.2, hnd.1, nodup_keysF_of_mem hnd.2 hc⟩

theorem nodup_keys_of_ancPath {t : RTree} {ancs : List RTree} {s : RTree}
    (h : AncPath t ancs s) : t.keys.Nodup → s.keys.Nodup := by
  induction h with
  | refl u => exact fun h => h
  | step hc hp ih =>
      rename_i t' c ancs' s'
      intro hnd
      exact ih (nodup_keys_child hnd hc).2.2

theorem ancPath_anc_occurs {t : RTree} {ancs : List RTree} {s : RTree}
    (h : AncPath t ancs s) : ∀ a ∈ ancs, Occurs a t := by
  induction h with
  | refl u => simp
  | step hc hp ih =>
      rename_i t' c ancs' s'
      intro a ha
      rcases List.mem_append.mp ha with h1 | h1
      · obtain ⟨p, hp'⟩ := ih a h1
        exact ⟨p ++ [t'], AncPath.step hc hp'⟩
      · rcases List.mem_singleton.mp h1 with rfl
        exact ⟨[], AncPath.refl _⟩

theorem ancPath_anc_key_not_mem {t : RTree} {ancs : List RTree} {s : RTree}
    (h : AncPath t ancs s) : t.keys.Nodup → ∀ a ∈ ancs, a.key ∉ s.keys := by
  induction h with
  | refl u => simp
  | step hc hp ih =>
      rename_i t' c ancs' s'
      intro hnd a ha
      obtain ⟨hndF, hknotF, hndc⟩ := nodup_keys_child hnd hc
      rcases List.mem_append.mp ha with h1 | h1
      · exact ih hndc a h1
      · rcases List.mem_singleton.mp h1 with rfl
        intro hmem
        exact hknotF (mem_keysF_of_mem hc (ancPath_keys_subset hp hmem))

theorem ancPath_chain_nodup {t : RTree} {ancs : List RTree} {s : RTree}
    (h : AncPath t ancs s) : t.keys.Nodup →
    (s.key :: ancs.map RTree.key).Nodup := by
  induction h with
  | refl u => simp
  | step hc hp ih =>
      rename_i t' c ancs' s'
      intro hnd
      obtain ⟨hndF, hknotF, hndc⟩ := nodup_keys_child hnd hc
      have hin : ∀ x ∈ s'.key :: ancs'.map RTree.key, x ∈ c.keys := by
        intro x hx
        rcases List.mem_cons.mp hx with h1 | h1
        · subst h1; exact ancPath_keys_subset hp (key_mem_keys s')
        · obtain ⟨a, ha, rfl⟩ := List.mem_map.mp h1
          obtain ⟨p, hp'⟩ := ancPath_anc_occurs hp a ha
          exact ancPath_key_mem hp'
      have hrw : s'.key :: (ancs' ++ [t']).map RTree.key =
          (s'.key :: ancs'.map RTree.key) ++ [t'.key] := by simp
      rw [hrw, List.nodup_append]
      refine ⟨ih hndc, List.nodup_singleton _, ?_⟩
      intro x hx hx'
      rcases List.mem_singleton.mp hx' with rfl
      exact hknotF (mem_keysF_of_mem hc (hin _ hx))

theorem keysF_mem_unique {cs : List RTree} (hnd : (keysF cs).Nodup)
    {c₁ c₂ : RTree} (h₁ : c₁ ∈ cs) (h₂ : c₂ ∈ cs) {k : String}
    (hk₁ : k ∈ c₁.keys) (hk₂ : k ∈ c₂.keys) : c₁ = c₂ := by
  induction cs with
  | nil => cases h₁
  | cons c₀ cs' ih =>
      rw [keysF_cons, List.nodup_append] at hnd
      rcases List.mem_cons.mp h₁ with ha | ha <;>
        rcases List.mem_cons.mp h₂ with hb | hb
      · rw [ha, hb]
      · subst ha
        exact absurd (mem_keysF_of_mem hb hk₂) (fun h => hnd.2.2 hk₁ h)
      · subst hb
        exact absurd (mem_keysF_of_mem ha hk₁) (fun h => hnd.2.2 hk₂ h)
      · exact ih hnd.2.1 ha hb

theorem ancPath_unique {t : RTree} (hnd : t.keys.Nodup) :
    ∀ {p₁ : List RTree} {s₁ : RTree} {p₂ : List RTree} {s₂ : RTree},
      AncPath t p₁ s₁ → AncPath t p₂ s₂ → s₁.key = s₂.key →
      s₁ = s₂ ∧ p₁ = p₂ := by
  induction t using RTree.ind with
  | h k d lv op sel cs ihm =>
      intro p₁ s₁ p₂ s₂ h₁ h₂ hk
      have hndF : (keysF cs).Nodup := by
        have := hnd
        rw [keys_mk, List.nodup_cons] at this
        exact this.2
      have hknotF : k ∉ keysF cs := by
        have := hnd
        rw [keys_mk, List.nodup_cons] at this
        exact this.1
      rcases ancPath_cases h₁ with ⟨hp₁, hw₁⟩ | ⟨c₁, hc₁, p₁', hp₁', rfl⟩ <;>
        rcases ancPath_cases h₂ with ⟨hp₂, hw₂⟩ | ⟨c₂, hc₂, p₂', hp₂', rfl⟩
      · subst hw₁; subst hw₂; exact ⟨rfl, hp₁.trans hp₂.symm⟩
      · subst hw₁
        have : s₂.key ∈ keysF cs := by
          have hsub := ancPath_keys_subset hp₂'
          exact mem_keysF_of_mem (by simpa [RTree.children] using hc₂)
            (hsub (key_mem_keys s₂))
        rw [RTree.key] at hk
        exact absurd (hk ▸ this) hknotF
      · subst hw₂
        have : s₁.key ∈ keysF cs := by
          have hsub := ancPath_keys_subset hp₁'
          exact mem_keysF_of_mem (by simpa [RTree.children] using hc₁)
            (hsub (key_mem_keys s₁))
        rw [RTree.key] at hk
        exact absurd (hk.symm ▸ this) hknotF
      · have hc₁' : c₁ ∈ cs := by simpa [RTree.children] using hc₁
        have hc₂' : c₂ ∈ cs := by simpa [RTree.children] using hc₂
        have hceq : c₁ = c₂ :=
          keysF_mem_unique hndF hc₁' hc₂'
            (ancPath_keys_subset hp₁' (key_mem_keys s₁))
            (hk ▸ ancPath_keys_subset hp₂' (key_mem_keys s₂))
        subst hceq
        obtain ⟨hs, hp⟩ := ihm c₁ hc₁' (nodup_keysF_of_mem hndF hc₁')
          hp₁' hp₂' hk
        exact ⟨hs, by rw [hp]⟩

theorem mem_keys_path {t : RTree} {k : String} :
    k ∈ t.keys → ∃ p w, AncPath t p w ∧ w.key = k := by
  induction t using RTree.ind with
  | h k₀ d lv op sel cs ihm =>
      intro hk
      rw [keys_mk] at hk
      rcases List.mem_cons.mp hk with h1 | h1
      · exact ⟨[], RTree.mk k₀ d lv op sel cs, AncPath.refl _, by
          rw [RTree.key, h1]⟩
      · obtain ⟨c, hc, hkc⟩ := mem_keysF_iff.mp h1
        obtain ⟨p, w, hp, hw⟩ := ihm c hc hkc
        exact ⟨p ++ [RTree.mk k₀ d lv op sel cs], w,
          AncPath.step (by simpa [RTree.children] using hc) hp, hw⟩

theorem ancPath_extend {t : RTree} {ancs : List RTree} {s : RTree}
    (h : AncPath t ancs s) {c : RTree} (hc : c ∈ s.children) :
    AncPath t (s :: ancs) c := by
  induction h with
  | refl u => exact (AncPath.step hc (AncPath.refl c) : AncPath u ([] ++ [u]) c)
  | step hmem hp ih =>
      rename_i t' c' ancs' s'
      exact (AncPath.step hmem (ih hc) : AncPath t' ((s' :: ancs') ++ [t']) c)

theorem ancPath_comp {s : RTree} {pv : List RTree} {v : RTree}
    (h₁ : AncPath s pv v) :
    ∀ {t : RTree} {ps : List RTree}, AncPath t ps s →
    AncPath t (pv ++ ps) v := by
  induction h₁ with
  | refl u => intro t ps h₂; exact h₂
  | step hc hp ih =>
      rename_i smid c ancs' v'
      intro t ps h₂
      have h3 := ih (ancPath_extend h₂ hc)
      have heq : (ancs' ++ [smid]) ++ ps = ancs' ++ (smid :: ps) := by simp
      rw [heq]
      exact h3

/-! ## Locating records in the flat encoding -/

theorem flatten_find_self (t : RTree) (par : Option String) :
    (flatten t par).find t.key = some (toNode t par) := by
  rw [flatten_eq, find_cons, if_pos rfl]

theorem flatten_find {t : RTree} {p : List RTree} {w : RTree}
    (h : AncPath t p w) : t.keys.Nodup →
    ∀ par, (flatten t par).find w.key = some (toNode w (parOf p par)) := by
  induction h with
  | refl u =>
      intro hnd par
      rw [flatten_find_self, parOf]
  | step hc hp ih =>
      rename_i t' c ancs' s'
      intro hnd par
      obtain ⟨hndF, hknotF, hndc⟩ := nodup_keys_child hnd hc
      have hkmem : s'.key ∈ c.keys := ancPath_keys_subset hp (key_mem_keys s')
      have hne : t'.key ≠ s'.key := by
        intro he; exact hknotF (he ▸ mem_keysF_of_mem hc hkmem)
      have hpar : parOf ancs' (some t'.key) = parOf (ancs' ++ [t']) par := by
        cases ancs' <;> simp [parOf]
      rw [flatten_eq, find_cons, if_neg hne,
        flattenF_find_of_mem hndF hc hkmem, ih hndc (some t'.key), hpar]

theorem agrees_of_ancPath {t : RTree} {p : List RTree} {s : RTree}
    (h : AncPath t p s) : t.keys.Nodup →
    ∀ par k, k ∈ s.keys →
      (flatten t par).find k = (flatten s (parOf p par)).find k := by
  induction h with
  | refl u => intro hnd par k hk; rw [parOf]
  | step hc hp ih =>
      rename_i t' c ancs' s'
      intro hnd par k hk
      obtain ⟨hndF, hknotF, hndc⟩ := nodup_keys_child hnd hc
      have hkc : k ∈ c.keys := ancPath_keys_subset hp hk
      have hne : t'.key ≠ k := fun he => hknotF (he ▸ mem_keysF_of_mem hc hkc)
      have hpar : parOf ancs' (some t'.key) = parOf (ancs' ++ [t']) par := by
        cases ancs' <;> simp [parOf]
      rw [flatten_eq, find_cons, if_neg hne, flattenF_find_of_mem hndF hc hkc,
        ih hndc (some t'.key) k hk, hpar]

/-! ## The recursive subtree updater -/

theorem modifyRec_succ (upd : Node → Node) (fuel : Nat) (m : NodeMap)
    (key : String) :
    modifyRec upd (fuel + 1) m key =
      match m.find key with
      | none => none
      | some n => modifyRecL upd fuel (m.insert key (upd n)) (upd n).children := by
  rw [modifyRec]

theorem modifyRecL_nil (upd : Node → Node) (fuel : Nat) (m : NodeMap) :
    modifyRecL upd fuel m [] = some m := by
  rw [modifyRecL]

theorem modifyRecL_cons (upd : Node → Node) (fuel : Nat) (m : NodeMap)
    (k : String) (ks : List String) :
    modifyRecL upd fuel m (k :: ks) =
      match modifyRec upd fuel m k with
      | none => none
      | some m' => modifyRecL upd fuel m' ks := by
  rw [modifyRecL]

theorem size_le_sizeF {c : RTree} {cs : List RTree} (hc : c ∈ cs) :
    c.size ≤ sizeF cs := by
  induction cs with
  | nil => cases hc
  | cons c₀ cs' ih =>
      rw [sizeF_cons]
      rcases List.mem_cons.mp hc with h | h
      · subst h; omega
      · have := ih h; omega

theorem modifyRecL_master (fuel : Nat) (IH : MasterStmt fuel) :
    ∀ (cs : List RTree) (q : Option String) (upd g : Node → Node) (m : NodeMap),
      (∀ n, (upd n).children = n.children) →
      (∀ n, (g n).children = n.children) →
      (∀ c ∈ cs, c.size ≤ fuel) → (keysF cs).Nodup →
      (∀ k ∈ keysF cs, m.find k = ((flattenF cs q).find k).map g) →
      ∃ m', modifyRecL upd fuel m (cs.map RTree.key) = some m' ∧
        (∀ k ∈ keysF cs,
          m'.find k = ((flattenF cs q).find k).map (fun n => upd (g n))) ∧
        (∀ k, k ∉ keysF cs → m'.find k = m.find k) ∧
        m'.keyList = m.keyList := by
  intro cs
  induction cs with
  | nil =>
      intro q upd g m hu hg hsz hnd hag
      exact ⟨m, by rw [List.map_nil, modifyRecL_nil], by simp, fun k _ => rfl, rfl⟩
  | cons c cs' ih =>
      intro q upd g m hu hg hsz hnd hag
      rw [keysF_cons, List.nodup_append] at hnd
      have hagc : ∀ k ∈ c.keys, m.find k = ((flatten c q).find k).map g := by
        intro k hk
        rw [hag k (by simp [hk])]
        congr 1
        obtain ⟨v, hv⟩ := flatten_find_isSome hk q
        rw [flattenF_cons, find_append_left _ hv]
        exact hv.symm
      obtain ⟨m₁, hrun₁, hupd₁, hfr₁, hkl₁⟩ :=
        IH c q upd g m hu hg (hsz c (List.mem_cons_self _ _)) hnd.1 hagc
      have hagcs : ∀ k ∈ keysF cs', m₁.find k = ((flattenF cs' q).find k).map g := by
        intro k hk
        have hknotc : k ∉ c.keys := fun h => hnd.2.2 h hk
        rw [hfr₁ k hknotc, hag k (by simp [hk]), flattenF_cons,
          find_append_right _ (find_flatten_none hknotc q)]
      obtain ⟨m₂, hrun₂, hupd₂, hfr₂, hkl₂⟩ :=
        ih q upd g m₁ hu hg (fun c' hc' => hsz c' (List.mem_cons_of_mem _ hc'))
          hnd.2.1 hagcs
      refine ⟨m₂, ?_, ?_, ?_, hkl₂.trans hkl₁⟩
      · simp only [List.map_cons, modifyRecL_cons, hrun₁, hrun₂]
      · intro k hk
        rcases List.mem_append.mp (by simpa using hk) with h | h
        · have hknotcs : k ∉ keysF cs' := fun hmem => hnd.2.2 h hmem
          obtain ⟨v, hv⟩ := flatten_find_isSome h q
          rw [hfr₂ k hknotcs, hupd₁ k h, flattenF_cons, find_append_left _ hv, hv]
        · have hknotc : k ∉ c.keys := fun hmem => hnd.2.2 hmem h
          rw [hupd₂ k h, flattenF_cons,
            find_append_right _ (find_flatten_none hknotc q)]
      · intro k hk
        have h1 : k ∉ c.keys := fun h => hk (by simp [h])
        have h2 : k ∉ keysF cs' := fun h => hk (by simp [h])
        rw [hfr₂ k h2, hfr₁ k h1]

theorem modifyRec_master : ∀ fuel, MasterStmt fuel := by
  intro fuel
  induction fuel with
  | zero =>
      intro s par upd g m hu hg hsz hnd hag
      exact absurd hsz (by have := size_pos s; omega)
  | succ fuel IH =>
      intro s par upd g m hu hg hsz hnd hag
      have hfind : m.find s.key = some (g (toNode s par)) := by
        rw [hag s.key (key_mem_keys s), flatten_find_self, Option.map_some']
      have hch : (upd (g (toNode s par))).children = s.children.map RTree.key := by
        rw [hu, hg, toNode]
      rw [keys_eq, List.nodup_cons] at hnd
      have hsz' : ∀ c ∈ s.children, c.size ≤ fuel := by
        intro c hc
        have h1 := size_le_sizeF hc
        have h2 := size_eq s
        omega
      set m₁ := m.insert s.key (upd (g (toNode s par))) with hm₁
      have hagF : ∀ k ∈ keysF s.children,
          m₁.find k = ((flattenF s.children (some s.key)).find k).map g := by
        intro k hk
        have hne : s.key ≠ k := fun he => hnd.1 (he ▸ hk)
        rw [hm₁, find_insert_ne _ _ _ _ hne, hag k (by rw [keys_eq]; simp [hk]),
          flatten_eq, find_cons, if_neg hne]
      obtain ⟨m₂, hrun, hupd, hfr, hkl⟩ :=
        modifyRecL_master fuel IH s.children (some s.key) upd g m₁ hu hg
          hsz' hnd.2 hagF
      refine ⟨m₂, ?_, ?_, ?_, ?_⟩
      · simp only [modifyRec_succ, hfind, hch, hrun]
      · intro k hk
        rw [keys_eq] at hk
        rcases List.mem_cons.mp hk with h | h
        · subst h
          rw [hfr _ hnd.1, hm₁, find_insert_self, flatten_find_self,
            Option.map_some']
        · have hne : s.key ≠ k := fun he => hnd.1 (by rw [he]; exact h)
          rw [hupd k h, flatten_eq, find_cons, if_neg hne]
      · intro k hk
        rw [keys_eq] at hk
        have h1 : s.key ≠ k := fun he => hk (by rw [← he]; exact List.mem_cons_self _ _)
        have h2 : k ∉ keysF s.children := fun h => hk (List.mem_cons_of_mem _ h)
        rw [hfr k h2, hm₁, find_insert_ne _ _ _ _ h1]
      · rw [hkl, hm₁, keyList_insert_of_mem]
        rw [← find_isSome_iff, hfind]
        rfl

theorem modifyRecL_noop (fuel : Nat) (IH : NoopStmt fuel) :
    ∀ (cs : List RTree) (q : Option String) (upd g : Node → Node) (m : NodeMap),
      (∀ n, (g n).children = n.children) →
      (∀ n, upd (g n) = g n) →
      (∀ c ∈ cs, c.size ≤ fuel) → (keysF cs).Nodup →
      (∀ k ∈ keysF cs, m.find k = ((flattenF cs q).find k).map g) →
      modifyRecL upd fuel m (cs.map RTree.key) = some m := by
  intro cs
  induction cs with
  | nil =>
      intro q upd g m hg hfix hsz hnd hag
      rw [List.map_nil, modifyRecL_nil]
  | cons c cs' ih =>
      intro q upd g m hg hfix hsz hnd hag
      rw [keysF_cons, List.nodup_append] at hnd
      have hagc : ∀ k ∈ c.keys, m.find k = ((flatten c q).find k).map g := by
        intro k hk
        rw [hag k (by simp [hk])]
        congr 1
        obtain ⟨v, hv⟩ := flatten_find_isSome hk q
        rw [flattenF_cons, find_append_left _ hv]
        exact hv.symm
      have hagcs : ∀ k ∈ keysF cs',
          m.find k = ((flattenF cs' q).find k).map g := by
        intro k hk
        have hknotc : k ∉ c.keys := fun h => hnd.2.2 h hk
        rw [hag k (by simp [hk]), flattenF_cons,
          find_append_right _ (find_flatten_none hknotc q)]
      simp only [List.map_cons, modifyRecL_cons,
        IH c q upd g m hg hfix (hsz c (List.mem_cons_self _ _)) hnd.1 hagc,
        ih q upd g m hg hfix (fun c' hc' => hsz c' (List.mem_cons_of_mem _ hc'))
          hnd.2.1 hagcs]

theorem modifyRec_noop : ∀ fuel, NoopStmt fuel := by
  intro fuel
  induction fuel with
  | zero =>
      intro s par upd g m hg hfix hsz hnd hag
      exact absurd hsz (by have := size_pos s; omega)
  | succ fuel IH =>
      intro s par upd g m hg hfix hsz hnd hag
      have hfind : m.find s.key = some (g (toNode s par)) := by
        rw [hag s.key (key_mem_keys s), flatten_find_self, Option.map_some']
      have hins : m.insert s.key (upd (g (toNode s par))) = m := by
        rw [hfix, insert_noop _ _ _ hfind]
      have hch : (upd (g (toNode s par))).children = s.children.map RTree.key := by
        rw [hfix, hg, toNode]
      rw [keys_eq, List.nodup_cons] at hnd
      have hsz' : ∀ c ∈ s.children, c.size ≤ fuel := by
        intro c hc
        have h1 := size_le_sizeF hc
        have h2 := size_eq s
        omega
      have hagF : ∀ k ∈ keysF s.children,
          m.find k = ((flattenF s.children (some s.key)).find k).map g := by
        intro k hk
        have hne : s.key ≠ k := fun he => hnd.1 (he ▸ hk)
        rw [hag k (by rw [keys_eq]; simp [hk]), flatten_eq, find_cons, if_neg hne]
      simp only [modifyRec_succ, hfind, hch, hins]
      rw [modifyRecL_noop fuel IH s.children (some s.key) upd g m hg hfix
        hsz' hnd.2 hagF]

/-! ## The upward recomputation pass -/

theorem mapM_option_congr {α β : Type} {f g : α → Option β} :
    ∀ {l : List α}, (∀ x ∈ l, f x = g x) → l.mapM f = l.mapM g := by
  intro l
  induction l with
  | nil => intro h; rfl
  | cons x xs ih =>
      intro h
      rw [List.mapM_cons, List.mapM_cons, h x (List.mem_cons_self _ _),
        ih (fun y hy => h y (List.mem_cons_of_mem _ hy))]

theorem mapM_option_isSome {α β : Type} {f : α → Option β} :
    ∀ {l : List α}, (∀ x ∈ l, (f x).isSome) → ∃ ys, l.mapM f = some ys := by
  intro l
  induction l with
  | nil => intro h; exact ⟨[], rfl⟩
  | cons x xs ih =>
      intro h
      obtain ⟨y, hy⟩ :=
        Option.isSome_iff_exists.mp (h x (List.mem_cons_self _ _))
      obtain ⟨ys, hys⟩ := ih (fun z hz => h z (List.mem_cons_of_mem _ hz))
      refine ⟨y :: ys, ?_⟩
      rw [List.mapM_cons, hy, hys]
      rfl

theorem walkUp_none (orig : NodeMap) (fuel : Nat) (m : NodeMap) :
    walkUp orig fuel m none = some m := by
  cases fuel <;> rw [walkUp]

theorem walkUp_succ (orig : NodeMap) (fuel : Nat) (m : NodeMap) (curr : Node) :
    walkUp orig (fuel + 1) m (some curr) =
      match curr.children.mapM (fun k => (m.find k).map Node.selectedState) with
      | none => none
      | some states =>
          walkUp orig fuel
            (m.insert curr.key { curr with selectedState := aggSel states })
            (match curr.parent with
             | some p => if p = "" then none else orig.find p
             | none => none) := by
  rw [walkUp]

theorem walkUp_spec {t : RTree} (hnd : t.keys.Nodup) (hne : "" ∉ t.keys) :
    ∀ (ancs : List RTree) (b : RTree), AncPath t ancs b →
    ∀ (fuel : Nat) (m : NodeMap), ancs.length < fuel →
    (∀ k ∈ t.keys, (m.find k).isSome) →
    ∃ m', walkUp (flatten t none) fuel m (ancEntry ancs) = some m' ∧
      (∀ k, k ∉ ancs.map RTree.key → m'.find k = m.find k) ∧
      (∀ a ∈ ancs, ∃ n₀ sts, (flatten t none).find a.key = some n₀ ∧
        n₀.children.mapM (fun c => (m'.find c).map Node.selectedState) =
          some sts ∧
        m'.find a.key = some { n₀ with selectedState := aggSel sts }) ∧
      m'.keyList = m.keyList := by
  intro ancs
  induction ancs with
  | nil =>
      intro b hp fuel m hfuel hsome
      exact ⟨m, by rw [ancEntry, walkUp_none], fun k _ => rfl, by simp, rfl⟩
  | cons a rest ih =>
      intro b hp fuel m hfuel hsome
      obtain ⟨hbmem, hpa⟩ := ancPath_cons hp
      obtain ⟨fuel, rfl⟩ : ∃ f, fuel = f + 1 := by
        cases fuel with
        | zero => exact absurd hfuel (by simp)
        | succ f => exact ⟨f, rfl⟩
      have hka : a.keys.Nodup := nodup_keys_of_ancPath hpa hnd
      have hsub : a.keys ⊆ t.keys := ancPath_keys_subset hpa
      have hchmem : ∀ c ∈ a.children.map RTree.key, c ∈ keysF a.children := by
        intro c hc
        obtain ⟨u, hu, rfl⟩ := List.mem_map.mp hc
        exact mem_keysF_of_mem hu (key_mem_keys u)
      have hchkeys : ∀ c ∈ a.children.map RTree.key, c ∈ a.keys := by
        intro c hc
        rw [keys_eq]
        exact List.mem_cons_of_mem _ (hchmem c hc)
      have hchne : ∀ c ∈ a.children.map RTree.key, c ≠ a.key := by
        intro c hc he
        rw [keys_eq, List.nodup_cons] at hka
        exact hka.1 (he ▸ hchmem c hc)
      have hchrest : ∀ c ∈ a.children.map RTree.key, c ∉ rest.map RTree.key := by
        intro c hc hmem
        obtain ⟨x, hx, hxk⟩ := List.mem_map.mp hmem
        exact ancPath_anc_key_not_mem hpa hnd x hx (hxk ▸ hchkeys c hc)
      obtain ⟨sts₀, hsts₀⟩ :=
        @mapM_option_isSome String Selected
          (fun c => (m.find c).map Node.selectedState)
          (a.children.map RTree.key)
          (by
            intro c hc
            have h1 := hsome c (hsub (hchkeys c hc))
            obtain ⟨v, hv⟩ := Option.isSome_iff_exists.mp h1
            show (Option.map Node.selectedState (m.find c)).isSome = true
            rw [hv]; rfl)
      have hrec : (toNode a (parOf rest none)).children = a.children.map RTree.key := rfl
      set newRec : Node :=
        { toNode a (parOf rest none) with selectedState := aggSel sts₀ } with hnewRec
      set m₁ := m.insert a.key newRec with hm₁
      have hm₁some : ∀ k ∈ t.keys, (m₁.find k).isSome := by
        intro k hk
        by_cases hka' : a.key = k
        · rw [hm₁, ← hka', find_insert_self]; rfl
        · rw [hm₁, find_insert_ne _ _ _ _ hka']
          exact hsome k hk
      have hm₁kl : m₁.keyList = m.keyList := by
        rw [hm₁, keyList_insert_of_mem]
        rw [← find_isSome_iff]
        exact hsome a.key (hsub (key_mem_keys a))
      obtain ⟨m', hrun, hframe, hanc, hkl⟩ :=
        ih a hpa fuel m₁ (by simpa using Nat.lt_of_succ_lt_succ hfuel)
          hm₁some
      have hpar : (match (toNode a (parOf rest none)).parent with
          | some p => if p = "" then none else (flatten t none).find p
          | none => none) = ancEntry rest := by
        cases rest with
        | nil =>
            have : a = t := ancPath_nil hpa
            subst this
            rfl
        | cons a₂ rest' =>
            obtain ⟨hmem₂, hpa₂⟩ := ancPath_cons hpa
            have hkey₂ : a₂.key ∈ t.keys := ancPath_key_mem hpa₂
            have hne₂ : a₂.key ≠ "" := fun he => hne (he ▸ hkey₂)
            show (if a₂.key = "" then none
              else (flatten t none).find a₂.key) = ancEntry (a₂ :: rest')
            rw [if_neg hne₂, flatten_find hpa₂ hnd none, ancEntry]
      have hstep : walkUp (flatten t none) (fuel + 1) m (ancEntry (a :: rest)) =
          walkUp (flatten t none) fuel m₁ (ancEntry rest) := by
        rw [ancEntry, walkUp_succ]
        simp only [hrec, hsts₀, hpar]
        rfl
      have hchain : (b.key :: (a :: rest).map RTree.key).Nodup :=
        ancPath_chain_nodup hp hnd
      have hanotrest : a.key ∉ rest.map RTree.key := by
        rw [List.map_cons, List.nodup_cons, List.nodup_cons] at hchain
        exact hchain.2.1
      refine ⟨m', by rw [hstep, hrun], ?_, ?_, hkl.trans hm₁kl⟩
      · intro k hk
        have h1 : k ∉ rest.map RTree.key := fun h => hk (by simp [h])
        have h2 : a.key ≠ k := fun he => hk (by simp [← he])
        rw [hframe k h1, hm₁, find_insert_ne _ _ _ _ h2]
      · intro x hx
        rcases List.mem_cons.mp hx with h | h
        · subst h
          refine ⟨toNode x (parOf rest none), sts₀,
            flatten_find hpa hnd none, ?_, ?_⟩
          · rw [hrec]
            have hcongr := @mapM_option_congr String Selected
              (fun c => (m'.find c).map Node.selectedState)
              (fun c => (m.find c).map Node.selectedState)
              (x.children.map RTree.key)
              (fun c hc => by
                show Option.map Node.selectedState (m'.find c) =
                  Option.map Node.selectedState (m.find c)
                rw [hframe c (hchrest c hc), hm₁,
                  find_insert_ne _ _ _ _ (Ne.symm (hchne c hc))])
            rw [hcongr]
            exact hsts₀
          · rw [hframe x.key hanotrest, hm₁, find_insert_self]
        · exact hanc x h

/-! ## The subtree-deletion loop -/

theorem deleteLoop_nil (fuel : Nat) (m : NodeMap) :
    deleteLoop fuel m [] = some m := by
  cases fuel <;> rw [deleteLoop]

theorem deleteLoop_cons (fuel : Nat) (m : NodeMap) (key : String)
    (rest : List String) :
    deleteLoop (fuel + 1) m (key :: rest) =
      deleteLoop fuel (m.erase key)
        ((match m.find key with
          | some n => n.children
          | none => []).reverse ++ rest) := by
  rw [deleteLoop]

theorem deleteLoop_spec :
    ∀ (fuel : Nat) (fs : List RTree) (m : NodeMap),
      sizeF fs ≤ fuel →
      (keysF fs).Nodup →
      (∀ c ∈ fs, ∃ p, ∀ k ∈ c.keys, m.find k = (flatten c p).find k) →
      ∃ m', deleteLoop fuel m (fs.map RTree.key) = some m' ∧
        (∀ k ∈ keysF fs, m'.find k = none) ∧
        (∀ k, k ∉ keysF fs → m'.find k = m.find k) := by
  intro fuel
  induction fuel with
  | zero =>
      intro fs m hsz hnd hag
      cases fs with
      | nil =>
          exact ⟨m, by rw [List.map_nil, deleteLoop_nil], by simp, fun k _ => rfl⟩
      | cons c rest =>
          exfalso
          rw [sizeF_cons] at hsz
          have := size_pos c
          omega
  | succ fuel ihf =>
      intro fs m hsz hnd hag
      cases fs with
      | nil =>
          exact ⟨m, by rw [List.map_nil, deleteLoop_nil], by simp, fun k _ => rfl⟩
      | cons c rest =>
          obtain ⟨p, hp⟩ := hag c (List.mem_cons_self _ _)
          have hfind : m.find c.key = some (toNode c p) := by
            rw [hp c.key (key_mem_keys c), flatten_find_self]
          have hndc : c.keys.Nodup := by
            rw [keysF_cons, List.nodup_append] at hnd
            exact hnd.1
          have hkeysc : c.key ∉ keysF c.children := by
            have h0 := hndc
            rw [keys_eq, List.nodup_cons] at h0
            exact h0.1
          have hndF : (keysF c.children).Nodup := by
            have h0 := hndc
            rw [keys_eq, List.nodup_cons] at h0
            exact h0.2
          have hdisj : c.keys.Disjoint (keysF rest) := by
            rw [keysF_cons, List.nodup_append] at hnd
            exact hnd.2.2
          set fs' : List RTree := c.children.reverse ++ rest with hfs'
          have hstack : (match m.find c.key with
              | some n => n.children
              | none => []).reverse ++ rest.map RTree.key = fs'.map RTree.key := by
            rw [hfind, hfs']
            show (c.children.map RTree.key).reverse ++ rest.map RTree.key = _
            rw [List.map_append, List.map_reverse]
          have hperm : (keysF fs').Perm (keysF c.children ++ keysF rest) := by
            rw [hfs', keysF_append]
            exact (keysF_reverse_perm c.children).append_right _
          have hsz' : sizeF fs' ≤ fuel := by
            have h1 : sizeF fs' = sizeF c.children + sizeF rest := by
              rw [hfs', sizeF_append, sizeF_reverse]
            have h2 := size_eq c
            rw [sizeF_cons] at hsz
            omega
          have hnd' : (keysF fs').Nodup := by
            refine hperm.nodup_iff.mpr ?_
            rw [keysF_cons, List.nodup_append] at hnd
            rw [List.nodup_append]
            refine ⟨hndF, hnd.2.1, ?_⟩
            intro y hy
            exact hnd.2.2 (by rw [keys_eq]; exact List.mem_cons_of_mem _ hy)
          have hag' : ∀ u ∈ fs', ∃ q, ∀ k ∈ u.keys,
              (m.erase c.key).find k = (flatten u q).find k := by
            intro u hu
            rw [hfs'] at hu
            rcases List.mem_append.mp hu with h | h
            · have hu' : u ∈ c.children := List.mem_reverse.mp h
              refine ⟨some c.key, fun k hk => ?_⟩
              have hkmem : k ∈ keysF c.children := mem_keysF_of_mem hu' hk
              have hkne : c.key ≠ k := fun he => hkeysc (he ▸ hkmem)
              rw [find_erase_ne _ _ _ hkne,
                hp k (by rw [keys_eq]; exact List.mem_cons_of_mem _ hkmem),
                flatten_eq, find_cons, if_neg hkne,
                flattenF_find_of_mem hndF hu' hk]
            · obtain ⟨q, hq⟩ := hag u (List.mem_cons_of_mem _ h)
              refine ⟨q, fun k hk => ?_⟩
              have hkne : c.key ≠ k := fun he =>
                hdisj (he ▸ key_mem_keys c) (mem_keysF_of_mem h hk)
              rw [find_erase_ne _ _ _ hkne, hq k hk]
          obtain ⟨m', hrun, hdel, hfr⟩ := ihf fs' (m.erase c.key) hsz' hnd' hag'
          have hckey' : c.key ∉ keysF fs' := by
            intro hmem
            rcases List.mem_append.mp (hperm.mem_iff.mp hmem) with h | h
            · exact hkeysc h
            · exact hdisj (key_mem_keys c) h
          refine ⟨m', ?_, ?_, ?_⟩
          · rw [List.map_cons, deleteLoop_cons, hstack, hrun]
          · intro k hk
            rw [keysF_cons] at hk
            rcases List.mem_append.mp hk with h | h
            · rw [keys_eq] at h
              rcases List.mem_cons.mp h with h1 | h1
              · subst h1
                rw [hfr _ hckey', find_erase_self]
              · exact hdel k (hperm.mem_iff.mpr (List.mem_append.mpr (Or.inl h1)))
            · exact hdel k (hperm.mem_iff.mpr (List.mem_append.mpr (Or.inr h)))
          · intro k hk
            have h1 : k ∉ keysF fs' := by
              intro hmem
              rcases List.mem_append.mp (hperm.mem_iff.mp hmem) with h | h
              · exact hk (by rw [keysF_cons, keys_eq]; simp [h])
              · exact hk (by rw [keysF_cons]; simp [h])
            have h2 : c.key ≠ k := fun he =>
              hk (by rw [keysF_cons, ← he]; simp [key_mem_keys c])
            rw [hfr k h1, find_erase_ne _ _ _ h2]

/-! ## The re-rooting collection loop -/

theorem size_insert_of_not_mem (m : NodeMap) (k : String) (v : Node)
    (h : k ∉ m.keyList) : (m.insert k v).size = m.size + 1 := by
  have h1 := keyList_insert_of_not_mem m k v h
  have h2 := keyList_length (m.insert k v)
  have h3 := keyList_length m
  rw [h1] at h2
  simp only [List.length_append, List.length_singleton] at h2
  omega

theorem collectLoop_nil (orig : NodeMap) (fuel : Nat) (acc : NodeMap) :
    collectLoop orig fuel acc [] = some acc := by
  cases fuel <;> rw [collectLoop]

theorem collectLoop_cons (orig : NodeMap) (fuel : Nat) (acc : NodeMap)
    (k : String) (rest : List String) :
    collectLoop orig (fuel + 1) acc (k :: rest) =
      match orig.find k with
      | none => none
      | some n => collectLoop orig fuel (acc.insert n.key n)
          (n.children.reverse ++ rest) := by
  rw [collectLoop]

theorem collectLoop_spec (orig : NodeMap) :
    ∀ (fuel : Nat) (fs : List RTree) (acc : NodeMap),
      sizeF fs ≤ fuel →
      (keysF fs).Nodup →
      (∀ c ∈ fs, ∃ p, ∀ k ∈ c.keys, orig.find k = (flatten c p).find k) →
      (∀ k ∈ keysF fs, k ∉ acc.keyList) →
      ∃ m', collectLoop orig fuel acc (fs.map RTree.key) = some m' ∧
        (∀ k ∈ keysF fs, m'.find k = orig.find k) ∧
        (∀ k, k ∉ keysF fs → m'.find k = acc.find k) ∧
        m'.size = acc.size + sizeF fs := by
  intro fuel
  induction fuel with
  | zero =>
      intro fs acc hsz hnd hag hdis
      cases fs with
      | nil =>
          refine ⟨acc, by rw [List.map_nil, collectLoop_nil], by simp,
            fun k _ => rfl, ?_⟩
          show acc.size = acc.size + ([] : List String).length
          simp
      | cons c rest =>
          exfalso
          rw [sizeF_cons] at hsz
          have := size_pos c
          omega
  | succ fuel ihf =>
      intro fs acc hsz hnd hag hdis
      cases fs with
      | nil =>
          refine ⟨acc, by rw [List.map_nil, collectLoop_nil], by simp,
            fun k _ => rfl, ?_⟩
          show acc.size = acc.size + ([] : List String).length
          simp
      | cons c rest =>
          obtain ⟨p, hp⟩ := hag c (List.mem_cons_self _ _)
          have hfind : orig.find c.key = some (toNode c p) := by
            rw [hp c.key (key_mem_keys c), flatten_find_self]
          have hndc : c.keys.Nodup := by
            rw [keysF_cons, List.nodup_append] at hnd
            exact hnd.1
          have hkeysc : c.key ∉ keysF c.children := by
            have h0 := hndc
            rw [keys_eq, List.nodup_cons] at h0
            exact h0.1
          have hndF : (keysF c.children).Nodup := by
            have h0 := hndc
            rw [keys_eq, List.nodup_cons] at h0
            exact h0.2
          have hdisj : c.keys.Disjoint (keysF rest) := by
            rw [keysF_cons, List.nodup_append] at hnd
            exact hnd.2.2
          set fs' : List RTree := c.children.reverse ++ rest with hfs'
          have hperm : (keysF fs').Perm (keysF c.children ++ keysF rest) := by
            rw [hfs', keysF_append]
            exact (keysF_reverse_perm c.children).append_right _
          have hsz' : sizeF fs' ≤ fuel := by
            have h1 : sizeF fs' = sizeF c.children + sizeF rest := by
              rw [hfs', sizeF_append, sizeF_reverse]
            have h2 := size_eq c
            rw [sizeF_cons] at hsz
            omega
          have hnd' : (keysF fs').Nodup := by
            refine hperm.nodup_iff.mpr ?_
            rw [keysF_cons, List.nodup_append] at hnd
            rw [List.nodup_append]
            refine ⟨hndF, hnd.2.1, ?_⟩
            intro y hy
            exact hnd.2.2 (by rw [keys_eq]; exact List.mem_cons_of_mem _ hy)
          have hckey' : c.key ∉ keysF fs' := by
            intro hmem
            rcases List.mem_append.mp (hperm.mem_iff.mp hmem) with h | h
            · exact hkeysc h
            · exact hdisj (key_mem_keys c) h
          have hmemfs : ∀ k ∈ keysF fs', k ∈ keysF (c :: rest) := by
            intro k hk
            rcases List.mem_append.mp (hperm.mem_iff.mp hk) with h | h
            · rw [keysF_cons, keys_eq]; simp [h]
            · rw [keysF_cons]; simp [h]
          set acc₁ := acc.insert c.key (toNode c p) with hacc₁
          have hdis' : ∀ k ∈ keysF fs', k ∉ acc₁.keyList := by
            intro k hk
            rw [hacc₁, keyList_insert_of_not_mem _ _ _
              (hdis c.key (by rw [keysF_cons, keys_eq]; simp [key_mem_keys c]))]
            intro hmem
            rcases List.mem_append.mp hmem with h | h
            · exact hdis k (hmemfs k hk) h
            · rcases List.mem_singleton.mp h with rfl
              exact hckey' hk
          have hag' : ∀ u ∈ fs', ∃ q, ∀ k ∈ u.keys,
              orig.find k = (flatten u q).find k := by
            intro u hu
            rw [hfs'] at hu
            rcases List.mem_append.mp hu with h | h
            · have hu' : u ∈ c.children := List.mem_reverse.mp h
              refine ⟨some c.key, fun k hk => ?_⟩
              have hkmem : k ∈ keysF c.children := mem_keysF_of_mem hu' hk
              have hkne : c.key ≠ k := fun he => hkeysc (he ▸ hkmem)
              rw [hp k (by rw [keys_eq]; exact List.mem_cons_of_mem _ hkmem),
                flatten_eq, find_cons, if_neg hkne,
                flattenF_find_of_mem hndF hu' hk]
            · exact hag u (List.mem_cons_of_mem _ h)
          obtain ⟨m', hrun, hcol, hfr, hsize⟩ := ihf fs' acc₁ hsz' hnd' hag' hdis'
          have hstack : (toNode c p).children.reverse ++ rest.map RTree.key =
              fs'.map RTree.key := by
            rw [hfs']
            show (c.children.map RTree.key).reverse ++ rest.map RTree.key = _
            rw [List.map_append, List.map_reverse]
          refine ⟨m', ?_, ?_, ?_, ?_⟩
          · rw [List.map_cons, collectLoop_cons]
            simp only [hfind]
            show collectLoop orig fuel (acc.insert (toNode c p).key (toNode c p))
              ((toNode c p).children.reverse ++ rest.map RTree.key) = some m'
            rw [hstack, hacc₁] at *
            exact hrun
          · intro k hk
            rw [keysF_cons] at hk
            rcases List.mem_append.mp hk with h | h
            · rw [keys_eq] at h
              rcases List.mem_cons.mp h with h1 | h1
              · subst h1
                rw [hfr _ hckey', hacc₁, find_insert_self, hfind]
              · exact hcol k (hperm.mem_iff.mpr (List.mem_append.mpr (Or.inl h1)))
            · exact hcol k (hperm.mem_iff.mpr (List.mem_append.mpr (Or.inr h)))
          · intro k hk
            have h1 : k ∉ keysF fs' := fun hmem => hk (hmemfs k hmem)
            have h2 : c.key ≠ k := fun he =>
              hk (by rw [keysF_cons, ← he]; simp [key_mem_keys c])
            rw [hfr k h1, hacc₁, find_insert_ne _ _ _ _ h2]
          · rw [hsize, hacc₁, size_insert_of_not_mem _ _ _
              (hdis c.key (by rw [keysF_cons, keys_eq]; simp [key_mem_keys c]))]
            have h1 : sizeF fs' = sizeF c.children + sizeF rest := by
              rw [hfs', sizeF_append, sizeF_reverse]
            have h2 := size_eq c
            rw [sizeF_cons]
            omega

/-! ## The filtered bulk-deletion loop -/

theorem delSelLoop_nil (orig : NodeMap) (fuel : Nat) (acc : List Node) :
    delSelLoop orig fuel acc [] = some acc := by
  cases fuel <;> rw [delSelLoop]

theorem delSelLoop_cons (orig : NodeMap) (fuel : Nat) (acc : List Node)
    (curr : Node) (rest : List Node) :
    delSelLoop orig (fuel + 1) acc (curr :: rest) =
      match curr.children.mapM (fun k => orig.find k) with
      | none => none
      | some childNodes =>
          delSelLoop orig fuel
            (acc ++ [{ curr with children :=
              (childNodes.filter
                (fun c => c.selectedState ≠ Selected.Selected)).map Node.key }])
            ((childNodes.filter
                (fun c => c.selectedState ≠ Selected.Selected)).reverse ++ rest) := by
  rw [delSelLoop]

theorem delSelLoop_not_selected (orig : NodeMap) :
    ∀ (fuel : Nat) (stack acc arr : List Node),
      delSelLoop orig fuel acc stack = some arr →
      (∀ n ∈ stack, n.selectedState ≠ Selected.Selected) →
      (∀ n ∈ acc, n.selectedState ≠ Selected.Selected) →
      ∀ n ∈ arr, n.selectedState ≠ Selected.Selected := by
  intro fuel
  induction fuel with
  | zero =>
      intro stack acc arr hrun hst hacc
      cases stack with
      | nil =>
          rw [delSelLoop_nil] at hrun
          cases hrun
          exact hacc
      | cons curr rest => exact absurd hrun (by rw [delSelLoop]; simp)
  | succ fuel ih =>
      intro stack acc arr hrun hst hacc
      cases stack with
      | nil =>
          rw [delSelLoop_nil] at hrun
          cases hrun
          exact hacc
      | cons curr rest =>
          rcases hmm : curr.children.mapM (fun k => orig.find k) with _ | childNodes <;>
            rw [delSelLoop_cons, hmm] at hrun
          · cases hrun
          · refine ih _ _ _ hrun ?_ ?_
            · intro n hn
              rcases List.mem_append.mp hn with h | h
              · have h1 := List.mem_reverse.mp h
                have h2 := List.mem_filter.mp h1
                simpa using h2.2
              · exact hst n (List.mem_cons_of_mem _ h)
            · intro n hn
              rcases List.mem_append.mp hn with h | h
              · exact hacc n h
              · rcases List.mem_singleton.mp h with rfl
                exact hst curr (List.mem_cons_self _ _)

theorem filter_map_comm {α β : Type} (f : α → β) (p : β → Bool) :
    ∀ l : List α, (l.map f).filter p = (l.filter (fun x => p (f x))).map f := by
  intro l
  induction l with
  | nil => rfl
  | cons x xs ih =>
      rw [List.map_cons, List.filter_cons, List.filter_cons]
      by_cases h : p (f x) <;> simp [h, ih]

theorem sizeF_filter_le (p : RTree → Bool) :
    ∀ cs : List RTree, sizeF (cs.filter p) ≤ sizeF cs := by
  intro cs
  induction cs with
  | nil => exact le_rfl
  | cons c rest ih =>
      rw [List.filter_cons, sizeF_cons]
      by_cases h : p c
      · rw [if_pos h, sizeF_cons]
        omega
      · rw [if_neg h]
        omega

theorem mapM_find_keys (orig : NodeMap) (q : Option String) :
    ∀ l : List RTree, (∀ u ∈ l, orig.find u.key = some (toNode u q)) →
      (l.map RTree.key).mapM (fun k => orig.find k) =
        some (l.map (fun u => toNode u q)) := by
  intro l
  induction l with
  | nil => intro h; rfl
  | cons u us ih =>
      intro h
      rw [List.map_cons, List.map_cons, List.mapM_cons,
        h u (List.mem_cons_self _ _),
        ih (fun x hx => h x (List.mem_cons_of_mem _ hx))]
      rfl

theorem find_mem {m : NodeMap} {k : String} {v : Node}
    (h : m.find k = some v) : (k, v) ∈ m := by
  induction m with
  | nil => cases h
  | cons p rest ih =>
      obtain ⟨k₀, v₀⟩ := p
      by_cases h₀ : k₀ = k
      · subst h₀
        rw [find_cons, if_pos rfl] at h
        cases h
        exact List.mem_cons_self _ _
      · rw [find_cons, if_neg h₀] at h
        exact List.mem_cons_of_mem _ (ih h)

theorem mem_insert_or {m : NodeMap} {k : String} {v : Node} :
    ∀ p ∈ m.insert k v, p ∈ m ∨ p = (k, v) := by
  induction m with
  | nil =>
      intro p hp
      rcases List.mem_singleton.mp hp with rfl
      exact Or.inr rfl
  | cons q rest ih =>
      obtain ⟨k₀, v₀⟩ := q
      intro p hp
      by_cases h₀ : k₀ = k
      · rw [NodeMap.insert, if_pos h₀] at hp
        rcases List.mem_cons.mp hp with h | h
        · exact Or.inr h
        · exact Or.inl (List.mem_cons_of_mem _ h)
      · rw [NodeMap.insert, if_neg h₀] at hp
        rcases List.mem_cons.mp hp with h | h
        · exact Or.inl (h ▸ List.mem_cons_self _ _)
        · rcases ih p h with h1 | h1
          · exact Or.inl (List.mem_cons_of_mem _ h1)
          · exact Or.inr h1

theorem nodeArrToMap_mem :
    ∀ (arr : List Node) (m₀ : NodeMap),
      ∀ p ∈ arr.foldl (fun m n => m.insert n.key n) m₀, p ∈ m₀ ∨ p.2 ∈ arr := by
  intro arr
  induction arr with
  | nil => intro m₀ p hp; exact Or.inl hp
  | cons n ns ih =>
      intro m₀ p hp
      rw [List.foldl_cons] at hp
      rcases ih (m₀.insert n.key n) p hp with h | h
      · rcases mem_insert_or p h with h1 | h1
        · exact Or.inl h1
        · refine Or.inr ?_
          rw [h1]
          exact List.mem_cons_self _ _
      · exact Or.inr (List.mem_cons_of_mem _ h)

theorem delSelLoop_runs (orig : NodeMap) :
    ∀ (fuel : Nat) (fs : List (RTree × Option String)) (acc : List Node),
      (∀ cp ∈ fs, (Prod.fst cp).keys.Nodup) →
      (∀ cp ∈ fs, ∀ k ∈ (Prod.fst cp).keys,
        orig.find k = (flatten (Prod.fst cp) (Prod.snd cp)).find k) →
      sizeF (fs.map Prod.fst) ≤ fuel →
      ∃ arr, delSelLoop orig fuel acc
        (fs.map (fun cp => toNode (Prod.fst cp) (Prod.snd cp))) = some arr := by
  intro fuel
  induction fuel with
  | zero =>
      intro fs acc hndp hag hsz
      cases fs with
      | nil => exact ⟨acc, by rw [List.map_nil, delSelLoop_nil]⟩
      | cons cp rfs =>
          exfalso
          rw [List.map_cons, sizeF_cons] at hsz
          have := size_pos (Prod.fst cp)
          omega
  | succ fuel ih =>
      intro fs acc hndp hag hsz
      cases fs with
      | nil => exact ⟨acc, by rw [List.map_nil, delSelLoop_nil]⟩
      | cons cp rfs =>
          obtain ⟨c, p⟩ := cp
          have hndc : c.keys.Nodup := hndp (c, p) (List.mem_cons_self _ _)
          have hpc := hag (c, p) (List.mem_cons_self _ _)
          have hkeysc : c.key ∉ keysF c.children := by
            have h0 := hndc
            rw [keys_eq, List.nodup_cons] at h0
            exact h0.1
          have hndF : (keysF c.children).Nodup := by
            have h0 := hndc
            rw [keys_eq, List.nodup_cons] at h0
            exact h0.2
          have hchild : ∀ u ∈ c.children,
              orig.find u.key = some (toNode u (some c.key)) := by
            intro u hu
            have hpath : AncPath c ([] ++ [c]) u :=
              AncPath.step hu (AncPath.refl u)
            rw [hpc u.key (by
              rw [keys_eq]
              exact List.mem_cons_of_mem _ (mem_keysF_of_mem hu (key_mem_keys u)))]
            have h2 := flatten_find hpath hndc p
            simpa [parOf] using h2
          have hmapM : ((toNode c p).children).mapM (fun k => orig.find k) =
              some (c.children.map (fun u => toNode u (some c.key))) := by
            show (c.children.map RTree.key).mapM (fun k => orig.find k) = _
            exact mapM_find_keys orig (some c.key) c.children hchild
          set filt : List RTree :=
            c.children.filter (fun u => decide (u.sel ≠ Selected.Selected)) with hfilt
          have hkept : (c.children.map (fun u => toNode u (some c.key))).filter
              (fun n => n.selectedState ≠ Selected.Selected) =
              filt.map (fun u => toNode u (some c.key)) := by
            rw [filter_map_comm (fun u => toNode u (some c.key))
              (fun n => decide (n.selectedState ≠ Selected.Selected)) c.children]
            rw [hfilt]
            rfl
          set fs' : List (RTree × Option String) :=
            filt.reverse.map (fun u => (u, some (c.key))) ++ rfs with hfs'
          have hstack : (filt.map (fun u => toNode u (some c.key))).reverse ++
              rfs.map (fun cp => toNode (Prod.fst cp) (Prod.snd cp)) =
              fs'.map (fun cp => toNode (Prod.fst cp) (Prod.snd cp)) := by
            rw [hfs', List.map_append, List.map_map, ← List.map_reverse]
            rfl
          have hndp' : ∀ cp ∈ fs', (Prod.fst cp).keys.Nodup := by
            intro cp hcp
            rw [hfs'] at hcp
            rcases List.mem_append.mp hcp with h | h
            · obtain ⟨u, hu, rfl⟩ := List.mem_map.mp h
              have hu' : u ∈ c.children :=
                List.mem_of_mem_filter (List.mem_reverse.mp hu)
              exact nodup_keysF_of_mem hndF hu'
            · exact hndp cp (List.mem_cons_of_mem _ h)
          have hag' : ∀ cp ∈ fs', ∀ k ∈ (Prod.fst cp).keys,
              orig.find k = (flatten (Prod.fst cp) (Prod.snd cp)).find k := by
            intro cp hcp
            rw [hfs'] at hcp
            rcases List.mem_append.mp hcp with h | h
            · obtain ⟨u, hu, rfl⟩ := List.mem_map.mp h
              have hu' : u ∈ c.children :=
                List.mem_of_mem_filter (List.mem_reverse.mp hu)
              intro k hk
              have hkmem : k ∈ keysF c.children := mem_keysF_of_mem hu' hk
              have hkne : c.key ≠ k := fun he => hkeysc (he ▸ hkmem)
              show orig.find k = (flatten u (some c.key)).find k
              rw [hpc k (by rw [keys_eq]; exact List.mem_cons_of_mem _ hkmem),
                flatten_eq, find_cons, if_neg hkne,
                flattenF_find_of_mem hndF hu' hk]
            · exact hag cp (List.mem_cons_of_mem _ h)
          have hsz' : sizeF (fs'.map Prod.fst) ≤ fuel := by
            rw [hfs', List.map_append, List.map_map]
            have h1 : (List.map (Prod.fst ∘ fun u => (u, some (c.key)))
                filt.reverse) = filt.reverse := by
              have h0 : (Prod.fst ∘ fun u : RTree => (u, some (c.key))) =
                  fun u : RTree => u := rfl
              rw [h0]
              simp
            rw [h1, sizeF_append, sizeF_reverse]
            have h2 : sizeF filt ≤ sizeF c.children := by
              rw [hfilt]
              exact sizeF_filter_le _ c.children
            have h3 := size_eq c
            simp only [List.map_cons, sizeF_cons] at hsz
            omega
          obtain ⟨arr, harr⟩ := ih fs'
            (acc ++ [{ toNode c p with children :=
              (filt.map (fun u => toNode u (some c.key))).map Node.key }])
            hndp' hag' hsz'
          refine ⟨arr, ?_⟩
          rw [List.map_cons, delSelLoop_cons]
          simp only [hmapM, hkept]
          rw [hstack]
          exact harr

/-! ## Size and chain-length bounds -/

theorem size_le_of_ancPath {t : RTree} {ancs : List RTree} {s : RTree}
    (hnd : t.keys.Nodup) (hp : AncPath t ancs s) : s.size ≤ t.size :=
  (List.subperm_of_subset (nodup_keys_of_ancPath hp hnd)
    (ancPath_keys_subset hp)).length_le

theorem chain_length_lt {t : RTree} {ancs : List RTree} {s : RTree}
    (hnd : t.keys.Nodup) (hp : AncPath t ancs s) : ancs.length < t.size := by
  have h1 := ancPath_chain_nodup hp hnd
  have h2 : ∀ x ∈ s.key :: ancs.map RTree.key, x ∈ t.keys := by
    intro x hx
    rcases List.mem_cons.mp hx with h | h
    · subst h; exact ancPath_key_mem hp
    · obtain ⟨a, ha, rfl⟩ := List.mem_map.mp h
      obtain ⟨q, hq⟩ := ancPath_anc_occurs hp a ha
      exact ancPath_key_mem hq
  have h3 := (List.subperm_of_subset h1 h2).length_le
  rw [List.length_cons, List.length_map] at h3
  rw [RTree.size]
  omega

theorem sizeF_singleton (s : RTree) : sizeF [s] = s.size := by
  simp [sizeF, RTree.size]

theorem toTreeState_nodes_size (t : RTree) :
    (toTreeState t).nodes.size = t.size := by
  rw [toTreeState]
  show (flatten t none).length = t.size
  exact flatten_length t none

/-! ## Concrete example facts -/

theorem exT_keys : exT.keys = ["r", "a", "b"] := by
  simp [exT, exLeafA, exLeafB]

theorem exT_path : AncPath exT [exT] exLeafA := by
  have h : exLeafA ∈ exT.children :=
    show exLeafA ∈ [exLeafA, exLeafB] from List.mem_cons_self _ _
  exact AncPath.step h (AncPath.refl exLeafA)

theorem exDelT_keys : exDelT.keys = ["r", "p", "s", "d"] := by
  simp [exDelT, exDelA, exDelS, exDelD]

theorem exDelT_path : AncPath exDelT [exDelA, exDelT] exDelS := by
  have h1 : exDelS ∈ exDelA.children :=
    show exDelS ∈ [exDelS, exDelD] from List.mem_cons_self _ _
  have h2 : exDelA ∈ exDelT.children :=
    show exDelA ∈ [exDelA] from List.mem_cons_self _ _
  exact AncPath.step h2 (AncPath.step h1 (AncPath.refl exDelS))

theorem exC7_keys : exC7.keys = ["r", "m", "x"] := by
  simp [exC7, exMid, exX]

theorem exC7_path : AncPath exC7 [exMid, exC7] exX := by
  have h1 : exX ∈ exMid.children :=
    show exX ∈ [exX] from List.mem_cons_self _ _
  have h2 : exMid ∈ exC7.children :=
    show exMid ∈ [exMid] from List.mem_cons_self _ _
  exact AncPath.step h2 (AncPath.step h1 (AncPath.refl exX))

theorem exC2_keys : exC2.keys = ["r", "a", "b"] := by
  simp [exC2, exSelLeafA, exLeafB]

/-! ## The claims -/

/-- C4: `deleteNode` applied to the current root, and `deleteSelected`
applied when the root's `selectedState` is `Selected`, are both rejected and
perform no mutation: the resulting tree state (nodes mapping and root
identifier) is exactly the state before the call. -/
theorem c4_root_deletion_rejected :
    (∀ (tree : TreeState) (node : Node), node.key = tree.rootId →
      deleteNode tree node = some tree) ∧
    (∀ (tree : TreeState) (root : Node),
      tree.nodes.find tree.rootId = some root →
      root.selectedState = Selected.Selected →
      deleteSelected tree = some tree) := by
  constructor
  · intro tree node h
    rw [deleteNode, if_pos h]
  · intro tree root h hsel
    rw [deleteSelected]
    simp only [h]
    rw [if_pos hsel]

/-- Witness for C4 at concrete inputs: deleting the root of a two-leaf tree,
and bulk-deleting when a lone root is `Selected`, both return the state
unchanged. -/
theorem c4_witness :
    deleteNode (toTreeState exT) (toNode exT none) = some (toTreeState exT) ∧
    deleteSelected litSelRoot = some litSelRoot := by
  constructor
  · exact c4_root_deletion_rejected.1 (toTreeState exT) (toNode exT none) rfl
  · exact c4_root_deletion_rejected.2 litSelRoot litSelNode rfl rfl

/-- C3, counterexample to the claim as stated: on a tree whose root is
`Selected`, `addChild` gives the new leaf `selectedState = Unselected`, not
`Selected` as the claim predicts for a `Selected` parent. -/
theorem c3_counterexample :
    litSelRoot.nodes.find litSelRoot.rootId = some litSelNode ∧
    litSelNode.selectedState = Selected.Selected ∧
    (addChild litSelRoot litSelNode "u").map
        (fun T => (T.nodes.find "u").map Node.selectedState) =
      some (some Selected.Unselected) ∧
    Selected.Unselected ≠ Selected.Selected := by
  exact ⟨rfl, rfl, rfl, by decide⟩

/-- C3 as amended: for every tree and every parent node P present in it,
`addChild`(P) creates the new leaf with `selectedState = Unselected`
regardless of P's state; the new node has `level = P.level + 1`,
`isOpen = true`, an empty child list, `parent` = P's identifier, and its
fresh identifier is appended last to P's child list, the existing order
preserved; all other entries are untouched. -/
theorem c3_addChild_spec (tree : TreeState) (p : Node) (uuid : String)
    (hp : tree.nodes.find p.key = some p)
    (hfresh : uuid ∉ tree.nodes.keyList) :
    ∃ T', addChild tree p uuid = some T' ∧ T'.rootId = tree.rootId ∧
      T'.nodes.find uuid = some { key := uuid, data := uuid, children := [],
                                  level := p.level + 1, isOpen := true,
                                  selectedState := Selected.Unselected,
                                  parent := some p.key } ∧
      T'.nodes.find p.key = some { p with children := p.children ++ [uuid] } ∧
      (∀ k, k ≠ uuid → k ≠ p.key → T'.nodes.find k = tree.nodes.find k) := by
  have hne : uuid ≠ p.key := by
    intro he
    have h1 : (tree.nodes.find p.key).isSome := by rw [hp]; rfl
    exact hfresh (he ▸ (find_isSome_iff _ _).mp h1)
  rw [addChild]
  simp only [hp]
  refine ⟨_, rfl, rfl, ?_, ?_, ?_⟩
  · show ((tree.nodes.insert uuid _).insert p.key _).find uuid = _
    rw [find_insert_ne _ _ _ _ (Ne.symm hne), find_insert_self]
  · show ((tree.nodes.insert uuid _).insert p.key _).find p.key = _
    rw [find_insert_self]
  · intro k h1 h2
    show ((tree.nodes.insert uuid _).insert p.key _).find k = _
    rw [find_insert_ne _ _ _ _ (Ne.symm h2), find_insert_ne _ _ _ _ (Ne.symm h1)]

/-- Witness for C3 as amended: adding a child under the lone `Selected` root
with fresh identifier `"u"` succeeds. -/
theorem c3_witness :
    (addChild litSelRoot litSelNode "u").isSome = true := by
  obtain ⟨T', h, -⟩ := c3_addChild_spec litSelRoot litSelNode "u" rfl (by decide)
  rw [h]
  rfl

/-- C6: for every tree and every node X present in it, `setRoot`(X) produces
a tree whose mapping contains exactly X and the nodes reachable from X via
child lists—each with its record, hence its `level`, `parent`, and
`selectedState`, identical to before the call—and whose root identifier is
X's identifier. -/
theorem c6_setRoot_spec (t s : RTree) (ancs : List RTree)
    (hnd : t.keys.Nodup) (hp : AncPath t ancs s) :
    ∃ m', setRoot (toTreeState t) (toNode s (parOf ancs none)) =
        some { nodes := m', rootId := s.key } ∧
      (∀ k ∈ s.keys, m'.find k = (flatten t none).find k ∧ (m'.find k).isSome) ∧
      (∀ k, k ∉ s.keys → m'.find k = none) := by
  have hsz : sizeF [s] ≤ (toTreeState t).nodes.size + 1 := by
    rw [sizeF_singleton, toTreeState_nodes_size]
    have := size_le_of_ancPath hnd hp
    omega
  have hnd1 : (keysF [s]).Nodup := by
    simpa using nodup_keys_of_ancPath hp hnd
  have hag : ∀ c ∈ [s], ∃ p, ∀ k ∈ c.keys,
      (toTreeState t).nodes.find k = (flatten c p).find k := by
    intro c hc
    rcases List.mem_singleton.mp hc with rfl
    exact ⟨parOf ancs none, fun k hk => agrees_of_ancPath hp hnd none k hk⟩
  have hdis : ∀ k ∈ keysF [s], k ∉ NodeMap.keyList [] := by
    intro k _ h
    simpa [NodeMap.keyList] using h
  obtain ⟨m', hrun, hcol, hfr, hsize⟩ :=
    collectLoop_spec (toTreeState t).nodes ((toTreeState t).nodes.size + 1)
      [s] [] hsz hnd1 hag hdis
  refine ⟨m', ?_, ?_, ?_⟩
  · rw [setRoot]
    have h1 : [(toNode s (parOf ancs none)).key] = [s].map RTree.key := rfl
    rw [h1, hrun]
    rfl
  · intro k hk
    have hk' : k ∈ keysF [s] := by simpa using hk
    constructor
    · exact hcol k hk'
    · rw [hcol k hk']
      rw [find_isSome_iff]
      show k ∈ (flatten t none).keyList
      rw [flatten_keyList]
      exact ancPath_keys_subset hp hk
  · intro k hk
    have hk' : k ∉ keysF [s] := by simpa using hk
    rw [hfr k hk']
    rfl

/-- Witness for C6: re-rooting the two-leaf example tree at its leaf `"a"`
succeeds. -/
theorem c6_witness :
    (setRoot (toTreeState exT) (toNode exLeafA (parOf [exT] none))).isSome
      = true := by
  obtain ⟨m', h, -⟩ := c6_setRoot_spec exT exLeafA [exT]
    (by rw [exT_keys]; decide) exT_path
  rw [h]
  rfl

/-- C7, counterexample to the claim as stated: on a three-node chain the
node `x` sits 2 levels deep and its subtree (the node and everything
reachable from it) has size 1; `setRoot`(x) yields a one-node tree, not the
1 + 1 = 2 nodes the claim predicts. -/
theorem c7_counterexample :
    (setRoot litC7 litC7x).map (fun T => (T.nodes.size, T.rootId)) =
      some (1, "x") ∧
    (1 : Nat) ≠ 1 + 1 := by
  exact ⟨rfl, by decide⟩

/-- C7 as amended: for every tree and every node X lying 2 levels deep in
it, `setRoot`(X) yields a tree whose node count equals the size of X's
original subtree (X and all nodes reachable from it—not 1 + that size) and
whose root identifier is X's identifier. -/
theorem c7_setRoot_count (t s a₁ a₂ : RTree)
    (hnd : t.keys.Nodup) (hp : AncPath t [a₁, a₂] s) :
    ∃ m', setRoot (toTreeState t) (toNode s (some a₁.key)) =
        some { nodes := m', rootId := s.key } ∧
      m'.size = s.size := by
  have hsz : sizeF [s] ≤ (toTreeState t).nodes.size + 1 := by
    rw [sizeF_singleton, toTreeState_nodes_size]
    have := size_le_of_ancPath hnd hp
    omega
  have hnd1 : (keysF [s]).Nodup := by
    simpa using nodup_keys_of_ancPath hp hnd
  have hag : ∀ c ∈ [s], ∃ p, ∀ k ∈ c.keys,
      (toTreeState t).nodes.find k = (flatten c p).find k := by
    intro c hc
    rcases List.mem_singleton.mp hc with rfl
    exact ⟨parOf [a₁, a₂] none, fun k hk => agrees_of_ancPath hp hnd none k hk⟩
  have hdis : ∀ k ∈ keysF [s], k ∉ NodeMap.keyList [] := by
    intro k _ h
    simpa [NodeMap.keyList] using h
  obtain ⟨m', hrun, hcol, hfr, hsize⟩ :=
    collectLoop_spec (toTreeState t).nodes ((toTreeState t).nodes.size + 1)
      [s] [] hsz hnd1 hag hdis
  refine ⟨m', ?_, ?_⟩
  · rw [setRoot]
    have h1 : [(toNode s (some a₁.key)).key] = [s].map RTree.key := rfl
    rw [h1, hrun]
    rfl
  · rw [hsize, sizeF_singleton]
    simp [NodeMap.size]

/-- Witness for C7 as amended: re-rooting the three-level chain at its
depth-2 leaf succeeds and keeps exactly the subtree's one node. -/
theorem c7_witness :
    (setRoot (toTreeState exC7) (toNode exX (some exMid.key))).map
      (fun T => T.nodes.size) = some exX.size := by
  obtain ⟨m', h, hs⟩ := c7_setRoot_count exC7 exX exMid exC7
    (by rw [exC7_keys]; decide) exC7_path
  rw [h]
  simp [hs]

/-- The flat form of a `modifyRec` run from a node of a well-formed tree:
apply the updater on the whole subtree, leave the rest. -/
theorem modifyRec_flat_spec (t s : RTree) (ancs : List RTree)
    (hnd : t.keys.Nodup) (hp : AncPath t ancs s) (upd : Node → Node)
    (hu : ∀ n, (upd n).children = n.children) :
    ∃ m', modifyRec upd ((flatten t none).size + 1) (flatten t none) s.key =
        some m' ∧
      (∀ k ∈ s.keys, m'.find k = ((flatten t none).find k).map upd) ∧
      (∀ k, k ∉ s.keys → m'.find k = (flatten t none).find k) ∧
      m'.keyList = (flatten t none).keyList := by
  have hsz : s.size ≤ (flatten t none).size + 1 := by
    have h1 := size_le_of_ancPath hnd hp
    have h2 := flatten_length t none
    show s.size ≤ (flatten t none).length + 1
    omega
  have hnds : s.keys.Nodup := nodup_keys_of_ancPath hp hnd
  have hag : ∀ k ∈ s.keys, (flatten t none).find k =
      ((flatten s (parOf ancs none)).find k).map id := by
    intro k hk
    rw [agrees_of_ancPath hp hnd none k hk]
    cases (flatten s (parOf ancs none)).find k <;> rfl
  obtain ⟨m', hrun, hupd, hfr, hkl⟩ :=
    modifyRec_master ((flatten t none).size + 1) s (parOf ancs none) upd id
      (flatten t none) hu (fun n => rfl) hsz hnds hag
  refine ⟨m', hrun, ?_, ?_, hkl⟩
  · intro k hk
    rw [hupd k hk, agrees_of_ancPath hp hnd none k hk]
    rfl
  · exact hfr

/-- The same, phrased for `modifyRecursively` on the encoded tree state. -/
theorem modifyRecursively_spec (t s : RTree) (ancs : List RTree)
    (hnd : t.keys.Nodup) (hp : AncPath t ancs s) (upd : Node → Node)
    (hu : ∀ n, (upd n).children = n.children) :
    ∃ m', modifyRecursively (toTreeState t) (toNode s (parOf ancs none)) upd =
        some { nodes := m', rootId := t.key } ∧
      (∀ k ∈ s.keys, m'.find k = ((flatten t none).find k).map upd) ∧
      (∀ k, k ∉ s.keys → m'.find k = (flatten t none).find k) ∧
      m'.keyList = (flatten t none).keyList := by
  obtain ⟨m', hrun, hupd, hfr, hkl⟩ := modifyRec_flat_spec t s ancs hnd hp upd hu
  refine ⟨m', ?_, hupd, hfr, hkl⟩
  rw [modifyRecursively]
  have h1 : (toNode s (parOf ancs none)).key = s.key := rfl
  have h2 : (toTreeState t).nodes = flatten t none := rfl
  rw [h1, h2, hrun]
  rfl

/-- C8: for every tree and every node N present in it, `foldRecursively`(N)
sets `isOpen = false`, and `expandRecursively`(N) sets `isOpen = true`, on N
and every descendant of N, leaving every other field of those records (key,
data, children, level, selectedState, parent) unchanged, and leaving every
node outside N's subtree entirely unchanged. -/
theorem c8_fold_expand_spec (t s : RTree) (ancs : List RTree)
    (hnd : t.keys.Nodup) (hp : AncPath t ancs s) :
    (∃ m', foldRecursively (toTreeState t) (toNode s (parOf ancs none)) =
        some { nodes := m', rootId := t.key } ∧
      (∀ k n₀, k ∈ s.keys → (flatten t none).find k = some n₀ →
        m'.find k = some { n₀ with isOpen := false }) ∧
      (∀ k, k ∉ s.keys → m'.find k = (flatten t none).find k)) ∧
    (∃ m', expandRecursively (toTreeState t) (toNode s (parOf ancs none)) =
        some { nodes := m', rootId := t.key } ∧
      (∀ k n₀, k ∈ s.keys → (flatten t none).find k = some n₀ →
        m'.find k = some { n₀ with isOpen := true }) ∧
      (∀ k, k ∉ s.keys → m'.find k = (flatten t none).find k)) := by
  constructor
  · obtain ⟨m', hrun, hupd, hfr, -⟩ :=
      modifyRecursively_spec t s ancs hnd hp setClosed (fun n => rfl)
    refine ⟨m', hrun, ?_, hfr⟩
    intro k n₀ hk hfind
    have h1 := hupd k hk
    rw [hfind, Option.map_some'] at h1
    exact h1
  · obtain ⟨m', hrun, hupd, hfr, -⟩ :=
      modifyRecursively_spec t s ancs hnd hp setOpen (fun n => rfl)
    refine ⟨m', hrun, ?_, hfr⟩
    intro k n₀ hk hfind
    have h1 := hupd k hk
    rw [hfind, Option.map_some'] at h1
    exact h1

/-- Witness for C8: folding and expanding at leaf `"a"` of the two-leaf
example tree both succeed. -/
theorem c8_witness :
    (foldRecursively (toTreeState exT) (toNode exLeafA (parOf [exT] none))).isSome
        = true ∧
    (expandRecursively (toTreeState exT) (toNode exLeafA (parOf [exT] none))).isSome
        = true := by
  obtain ⟨⟨m₁, h₁, -⟩, ⟨m₂, h₂, -⟩⟩ := c8_fold_expand_spec exT exLeafA [exT]
    (by rw [exT_keys]; decide) exT_path
  rw [h₁, h₂]
  exact ⟨rfl, rfl⟩

/-- C9: applying fold-all to a node twice in a row yields the same tree
state as applying it once, and likewise for expand-all. -/
theorem c9_fold_expand_idempotent (t s : RTree) (ancs : List RTree)
    (hnd : t.keys.Nodup) (hp : AncPath t ancs s) :
    (∃ T₁, foldRecursively (toTreeState t) (toNode s (parOf ancs none)) =
        some T₁ ∧
      foldRecursively T₁ (toNode s (parOf ancs none)) = some T₁) ∧
    (∃ T₂, expandRecursively (toTreeState t) (toNode s (parOf ancs none)) =
        some T₂ ∧
      expandRecursively T₂ (toNode s (parOf ancs none)) = some T₂) := by
  have hnds : s.keys.Nodup := nodup_keys_of_ancPath hp hnd
  constructor
  · obtain ⟨m₁, hrun, hupd, hfr, hkl⟩ :=
      modifyRecursively_spec t s ancs hnd hp setClosed (fun n => rfl)
    refine ⟨{ nodes := m₁, rootId := t.key }, hrun, ?_⟩
    have hsz : s.size ≤ m₁.size + 1 := by
      have h1 := size_le_of_ancPath hnd hp
      have h2 := flatten_length t none
      have h3 : m₁.keyList.length = (flatten t none).keyList.length := by
        rw [hkl]
      rw [keyList_length, keyList_length] at h3
      have h4 : NodeMap.size (flatten t none) = (flatten t none).length := rfl
      omega
    have hag : ∀ k ∈ s.keys, m₁.find k =
        ((flatten s (parOf ancs none)).find k).map setClosed := by
      intro k hk
      rw [hupd k hk, agrees_of_ancPath hp hnd none k hk]
    have hnoop := modifyRec_noop (m₁.size + 1) s (parOf ancs none) setClosed
      setClosed m₁ (fun n => rfl) (fun n => rfl) hsz hnds hag
    rw [foldRecursively, modifyRecursively]
    have h1 : (toNode s (parOf ancs none)).key = s.key := rfl
    rw [h1]
    show (modifyRec setClosed (m₁.size + 1) m₁ s.key).map _ = _
    rw [hnoop]
    rfl
  · obtain ⟨m₁, hrun, hupd, hfr, hkl⟩ :=
      modifyRecursively_spec t s ancs hnd hp setOpen (fun n => rfl)
    refine ⟨{ nodes := m₁, rootId := t.key }, hrun, ?_⟩
    have hsz : s.size ≤ m₁.size + 1 := by
      have h1 := size_le_of_ancPath hnd hp
      have h2 := flatten_length t none
      have h3 : m₁.keyList.length = (flatten t none).keyList.length := by
        rw [hkl]
      rw [keyList_length, keyList_length] at h3
      have h4 : NodeMap.size (flatten t none) = (flatten t none).length := rfl
      omega
    have hag : ∀ k ∈ s.keys, m₁.find k =
        ((flatten s (parOf ancs none)).find k).map setOpen := by
      intro k hk
      rw [hupd k hk, agrees_of_ancPath hp hnd none k hk]
    have hnoop := modifyRec_noop (m₁.size + 1) s (parOf ancs none) setOpen
      setOpen m₁ (fun n => rfl) (fun n => rfl) hsz hnds hag
    rw [expandRecursively, modifyRecursively]
    have h1 : (toNode s (parOf ancs none)).key = s.key := rfl
    rw [h1]
    show (modifyRec setOpen (m₁.size + 1) m₁ s.key).map _ = _
    rw [hnoop]
    rfl

/-- Witness for C9: fold-all and expand-all at leaf `"a"` of the two-leaf
example tree are idempotent. -/
theorem c9_witness :
    (foldRecursively (toTreeState exT) (toNode exLeafA (parOf [exT] none))).isSome
        = true ∧
    (expandRecursively (toTreeState exT) (toNode exLeafA (parOf [exT] none))).isSome
        = true := by
  obtain ⟨⟨T₁, h₁, -⟩, ⟨T₂, h₂, -⟩⟩ := c9_fold_expand_idempotent exT exLeafA [exT]
    (by rw [exT_keys]; decide) exT_path
  rw [h₁, h₂]
  exact ⟨rfl, rfl⟩

/-- C2, counterexample to the claim as stated: bulk-deleting on a tree whose
root is `Partial` (with one `Selected` and one `Unselected` leaf) leaves the
root's `selectedState` at `Partial`, not `Unselected` — the claimed reset of
survivors to `Unselected` does not happen at this input. -/
theorem c2_counterexample :
    litC2.nodes.find litC2.rootId = some litC2r ∧
    litC2r.selectedState ≠ Selected.Selected ∧
    (deleteSelected litC2).map
        (fun T => (T.nodes.find "r").map Node.selectedState) =
      some (some Selected.Partial) ∧
    Selected.Partial ≠ Selected.Unselected := by
  exact ⟨rfl, by decide, rfl, by decide⟩

/-- C2 as amended: for every tree whose root is not `Selected`, after
`deleteSelected` no remaining node has `selectedState = Selected`. -/
theorem c2_deleteSelected_spec (t : RTree) (hnd : t.keys.Nodup)
    (hroot : t.sel ≠ Selected.Selected) :
    ∃ m', deleteSelected (toTreeState t) =
        some { nodes := m', rootId := t.key } ∧
      ∀ k n, m'.find k = some n → n.selectedState ≠ Selected.Selected := by
  have hfind : (flatten t none).find t.key = some (toNode t none) :=
    flatten_find_self t none
  have hsz : sizeF ([((t, none) : RTree × Option String)].map Prod.fst) ≤
      (flatten t none).size + 1 := by
    show sizeF [t] ≤ (flatten t none).length + 1
    rw [sizeF_singleton]
    have h2 := flatten_length t none
    omega
  obtain ⟨arr, harr⟩ := delSelLoop_runs (flatten t none)
    ((flatten t none).size + 1) [(t, none)] []
    (by
      intro cp hcp
      rcases List.mem_singleton.mp hcp with rfl
      exact hnd)
    (by
      intro cp hcp
      rcases List.mem_singleton.mp hcp with rfl
      intro k hk
      rfl)
    hsz
  have hsel : ∀ n ∈ arr, n.selectedState ≠ Selected.Selected := by
    refine delSelLoop_not_selected (flatten t none) _ _ _ _ harr ?_ ?_
    · intro n hn
      rcases List.mem_singleton.mp
        (show n ∈ [toNode t none] from hn) with rfl
      exact hroot
    · intro n hn
      cases hn
  refine ⟨nodeArrToMap arr, ?_, ?_⟩
  · rw [deleteSelected]
    show (match (flatten t none).find t.key with
      | none => none
      | some rootNode =>
          if rootNode.selectedState = Selected.Selected then
            some (toTreeState t)
          else
            (delSelLoop (flatten t none) ((flatten t none).size + 1) []
                [rootNode]).map
              (fun arr => { toTreeState t with nodes := nodeArrToMap arr })) = _
    rw [hfind]
    show (if (toNode t none).selectedState = Selected.Selected then
        some (toTreeState t)
      else
        (delSelLoop (flatten t none) ((flatten t none).size + 1) []
            [toNode t none]).map
          (fun arr => { toTreeState t with nodes := nodeArrToMap arr })) = _
    rw [if_neg (show ¬(toNode t none).selectedState = Selected.Selected from hroot)]
    have h1 : [toNode t none] =
        [((t, none) : RTree × Option String)].map
          (fun cp => toNode (Prod.fst cp) (Prod.snd cp)) := rfl
    rw [h1, harr]
    rfl
  · intro k n hfindk
    have h1 : (k, n) ∈ nodeArrToMap arr := find_mem hfindk
    have h2 := nodeArrToMap_mem arr [] (k, n) h1
    rcases h2 with h | h
    · cases h
    · exact hsel n h

/-- Witness for C2 as amended: on the `Partial`-rooted example tree the bulk
deletion runs and leaves no `Selected` node. -/
theorem c2_witness :
    (deleteSelected (toTreeState exC2)).isSome = true := by
  obtain ⟨m', h, -⟩ := c2_deleteSelected_spec exC2
    (by rw [exC2_keys]; decide) (by rw [show exC2.sel = Selected.Partial from rfl]; decide)
  rw [h]
  rfl

/-- Shared description of a `deleteNode` run on a non-root node: the guard
passes, the parent's child list is filtered, the subtree's keys vanish, and
everything else is untouched. -/
theorem deleteNode_spec_aux (t s a : RTree) (ancs : List RTree)
    (hnd : t.keys.Nodup) (hp : AncPath t (a :: ancs) s) :
    ∃ m', deleteNode (toTreeState t) (toNode s (some a.key)) =
        some { nodes := m', rootId := t.key } ∧
      (∀ k ∈ s.keys, m'.find k = none) ∧
      m'.find a.key = some { toNode a (parOf ancs none) with
        children := (toNode a (parOf ancs none)).children.filter
          (fun k => k ≠ s.key) } ∧
      (∀ k, k ∉ s.keys → k ≠ a.key → m'.find k = (flatten t none).find k) := by
  obtain ⟨hmem, hpa⟩ := ancPath_cons hp
  have hanot : a.key ∉ s.keys :=
    ancPath_anc_key_not_mem hp hnd a (List.mem_cons_self _ _)
  have hguard : s.key ≠ t.key := by
    rcases ancPath_cases hp with ⟨h1, h2⟩ | ⟨c, hc, p', hp', he⟩
    · exact absurd h1 (by simp)
    · intro he2
      have h3 : s.key ∈ keysF t.children :=
        mem_keysF_of_mem hc (ancPath_keys_subset hp' (key_mem_keys s))
      have h4 : t.key ∉ keysF t.children := by
        have h0 := hnd
        rw [keys_eq, List.nodup_cons] at h0
        exact h0.1
      exact h4 (he2 ▸ h3)
  have hfa : (flatten t none).find a.key = some (toNode a (parOf ancs none)) :=
    flatten_find hpa hnd none
  set nA := toNode a (parOf ancs none) with hnA
  set m₁ := (flatten t none).insert a.key
    { nA with children := nA.children.filter (fun k => k ≠ s.key) } with hm₁
  have hag : ∀ c ∈ [s], ∃ p, ∀ k ∈ c.keys, m₁.find k = (flatten c p).find k := by
    intro c hc
    rcases List.mem_singleton.mp hc with rfl
    refine ⟨some a.key, fun k hk => ?_⟩
    have hkne : a.key ≠ k := fun he => hanot (he ▸ hk)
    rw [hm₁, find_insert_ne _ _ _ _ hkne]
    have h1 := agrees_of_ancPath hp hnd none k hk
    rw [h1]
    rfl
  have hsz : sizeF [s] ≤ (flatten t none).size + 1 := by
    show sizeF [s] ≤ (flatten t none).length + 1
    rw [sizeF_singleton]
    have h1 := size_le_of_ancPath hnd hp
    have h2 := flatten_length t none
    omega
  have hnd1 : (keysF [s]).Nodup := by
    simpa using nodup_keys_of_ancPath hp hnd
  obtain ⟨m₂, hrun, hdel, hfr⟩ := deleteLoop_spec ((flatten t none).size + 1)
    [s] m₁ hsz hnd1 hag
  have hanot1 : a.key ∉ keysF [s] := by simpa using hanot
  refine ⟨m₂, ?_, ?_, ?_, ?_⟩
  · have e1 : (toNode s (some a.key)).parent = some a.key := rfl
    have e2 : (toNode s (some a.key)).key = s.key := rfl
    have e3 : (toTreeState t).nodes = flatten t none := rfl
    have e4 : (toTreeState t).rootId = t.key := rfl
    rw [deleteNode]
    rw [e2, e4, if_neg hguard]
    simp only [e1, e2, e3, hfa]
    rw [← hm₁]
    have h1 : [s.key] = [s].map RTree.key := rfl
    rw [h1, hrun]
    rfl
  · intro k hk
    exact hdel k (by simpa using hk)
  · rw [hfr _ hanot1, hm₁, find_insert_self]
  · intro k hk1 hk2
    rw [hfr k (by simpa using hk1), hm₁, find_insert_ne _ _ _ _ (Ne.symm hk2)]

/-- C5: for every tree and every non-root node N present in it,
`deleteNode`(N) removes N's identifier from its parent's child list and
removes N and every descendant of N from the mapping, and afterwards no
remaining node's child list contains an identifier absent from the mapping. -/
theorem c5_deleteNode_spec (t s a : RTree) (ancs : List RTree)
    (hnd : t.keys.Nodup) (hp : AncPath t (a :: ancs) s) :
    ∃ m', deleteNode (toTreeState t) (toNode s (some a.key)) =
        some { nodes := m', rootId := t.key } ∧
      (∀ k ∈ s.keys, m'.find k = none) ∧
      (∃ n₀, (flatten t none).find a.key = some n₀ ∧
        m'.find a.key = some { n₀ with
          children := n₀.children.filter (fun k => k ≠ s.key) }) ∧
      (∀ k n, m'.find k = some n →
        ∀ c ∈ n.children, ∃ cn, m'.find c = some cn) := by
  obtain ⟨hmem, hpa⟩ := ancPath_cons hp
  obtain ⟨m', hrun, hdel, hpar, hfr⟩ := deleteNode_spec_aux t s a ancs hnd hp
  have hfa : (flatten t none).find a.key = some (toNode a (parOf ancs none)) :=
    flatten_find hpa hnd none
  have hanot : a.key ∉ s.keys :=
    ancPath_anc_key_not_mem hp hnd a (List.mem_cons_self _ _)
  have hpres : ∀ c, c ∈ t.keys → c ∉ s.keys → ∃ cn, m'.find c = some cn := by
    intro c hct hcs
    by_cases hca : c = a.key
    · subst hca
      exact ⟨_, hpar⟩
    · rw [hfr c hcs hca]
      exact flatten_find_isSome hct none
  refine ⟨m', hrun, hdel, ⟨_, hfa, hpar⟩, ?_⟩
  intro k n hfind c hc
  by_cases hks : k ∈ s.keys
  · rw [hdel k hks] at hfind
    cases hfind
  by_cases hka : k = a.key
  · subst hka
    rw [hpar] at hfind
    have hn := Option.some.inj hfind
    subst hn
    have hc' : c ∈ List.filter (fun k => decide (k ≠ s.key))
        (toNode a (parOf ancs none)).children := hc
    have hc1 := List.mem_filter.mp hc'
    have hcne : c ≠ s.key := by simpa using hc1.2
    have hcmem' : c ∈ a.children.map RTree.key := hc1.1
    obtain ⟨u, hu, hueq⟩ := List.mem_map.mp hcmem'
    subst hueq
    have hupath : AncPath t (a :: ancs) u := ancPath_extend hpa hu
    have hct : u.key ∈ t.keys := ancPath_key_mem hupath
    have hcnots : u.key ∉ s.keys := by
      intro hmem2
      obtain ⟨pv, w, hw, hwk⟩ := mem_keys_path hmem2
      have hwpath : AncPath t (pv ++ (a :: ancs)) w := ancPath_comp hw hp
      obtain ⟨hew, hpe⟩ := ancPath_unique hnd hupath hwpath (by rw [hwk])
      have hpv : pv = [] := by
        have h0 := congrArg List.length hpe
        rw [List.length_append] at h0
        exact List.eq_nil_of_length_eq_zero (by omega)
      subst hpv
      have hws : w = s := ancPath_nil hw
      exact hcne (by rw [← hwk, hws])
    exact hpres u.key hct hcnots
  · have hfind' : (flatten t none).find k = some n := by
      rw [← hfr k hks hka]
      exact hfind
    have hkt : k ∈ t.keys := by
      rw [← flatten_keyList t none]
      exact (find_isSome_iff _ _).mp (by rw [hfind']; rfl)
    obtain ⟨pw, w, hw, hwk⟩ := mem_keys_path hkt
    have hwfind := flatten_find hw hnd none
    rw [hwk, hfind'] at hwfind
    have hn := Option.some.inj hwfind
    subst hn
    have hcmem' : c ∈ w.children.map RTree.key := hc
    obtain ⟨u, hu, hueq⟩ := List.mem_map.mp hcmem'
    subst hueq
    have hupath : AncPath t (w :: pw) u := ancPath_extend hw hu
    have hct : u.key ∈ t.keys := ancPath_key_mem hupath
    have hcnots : u.key ∉ s.keys := by
      intro hmem2
      obtain ⟨pv, v, hv, hvk⟩ := mem_keys_path hmem2
      have hvpath : AncPath t (pv ++ (a :: ancs)) v := ancPath_comp hv hp
      obtain ⟨hew, hpe⟩ := ancPath_unique hnd hupath hvpath (by rw [hvk])
      cases pv with
      | nil =>
          have hwa : w = a := by
            have h0 := congrArg (fun l => List.headD l w) hpe
            simpa using h0
          exact hka (by rw [← hwk, hwa])
      | cons b pv' =>
          have hwb : w = b := by
            have h0 := congrArg (fun l => List.headD l w) hpe
            simpa using h0
          have hbs : b.key ∈ s.keys := by
            obtain ⟨q, hq⟩ := ancPath_anc_occurs hv b (List.mem_cons_self _ _)
            exact ancPath_key_mem hq
          exact hks (by rw [← hwk, hwb]; exact hbs)
    exact hpres u.key hct hcnots

/-- Witness for C5: deleting the `Unselected` leaf under the `Partial`
parent of the example tree succeeds. -/
theorem c5_witness :
    (deleteNode (toTreeState exDelT) (toNode exDelS (some exDelA.key))).isSome
      = true := by
  obtain ⟨m', h, -⟩ := c5_deleteNode_spec exDelT exDelS exDelA [exDelT]
    (by rw [exDelT_keys]; decide) exDelT_path
  rw [h]
  rfl

/-- C10: `deleteNode` on a non-root node never recomputes any ancestor's
`selectedState`: every remaining entry keeps its full record except the
deleted node's parent, whose record changes only in its child list; in
particular a `Partial` ancestor stays `Partial` even when the aggregation
rule would now yield another value. -/
theorem c10_deleteNode_frame (t s a : RTree) (ancs : List RTree)
    (hnd : t.keys.Nodup) (hp : AncPath t (a :: ancs) s) :
    ∃ m', deleteNode (toTreeState t) (toNode s (some a.key)) =
        some { nodes := m', rootId := t.key } ∧
      (∀ k, k ∉ s.keys → k ≠ a.key → m'.find k = (flatten t none).find k) ∧
      (∃ n₀, (flatten t none).find a.key = some n₀ ∧
        m'.find a.key = some { n₀ with
          children := n₀.children.filter (fun k => k ≠ s.key) }) := by
  obtain ⟨hmem, hpa⟩ := ancPath_cons hp
  obtain ⟨m', hrun, hdel, hpar, hfr⟩ := deleteNode_spec_aux t s a ancs hnd hp
  exact ⟨m', hrun, hfr, ⟨_, flatten_find hpa hnd none, hpar⟩⟩

/-- Witness for C10: deleting the only non-`Selected` child of the `Partial`
parent `"p"` leaves that parent's `selectedState` at `Partial`, although the
aggregation rule over its remaining child (`Selected`) would give
`Selected`. -/
theorem c10_witness :
    (deleteNode (toTreeState exDelT) (toNode exDelS (some exDelA.key))).map
      (fun T => (T.nodes.find "p").map Node.selectedState) =
      some (some Selected.Partial) := by
  obtain ⟨m', hrun, hfr, n₀, hn₀, hpar⟩ := c10_deleteNode_frame exDelT exDelS
    exDelA [exDelT] (by rw [exDelT_keys]; decide) exDelT_path
  rw [hrun, Option.map_some']
  have hpath : AncPath exDelT [exDelT] exDelA := by
    have h2 : exDelA ∈ exDelT.children :=
      show exDelA ∈ [exDelA] from List.mem_cons_self _ _
    exact AncPath.step h2 (AncPath.refl exDelA)
  have hcomp : (flatten exDelT none).find exDelA.key =
      some (toNode exDelA (parOf [exDelT] none)) :=
    flatten_find hpath (by rw [exDelT_keys]; decide) none
  rw [hcomp] at hn₀
  have hn := Option.some.inj hn₀
  subst hn
  show some ((m'.find exDelA.key).map Node.selectedState) = _
  rw [hpar]
  rfl

/-- C1: for every tree and every node N present in it, `setSelected`(N)
computes the new value as the opposite of N's current state (`Selected`
becomes `Unselected`; `Unselected` or `Partial` becomes `Selected`), assigns
that value to N and every descendant of N, then walks upward from N's parent
to the root recomputing each ancestor's `selectedState` with `aggSel` from
its children's (just-updated) states, and leaves every node outside N's
subtree and outside N's ancestor chain unchanged. -/
theorem c1_setSelected_spec (t s : RTree) (ancs : List RTree)
    (hnd : t.keys.Nodup) (hne : "" ∉ t.keys) (hp : AncPath t ancs s) :
    ∃ m', setSelected (toTreeState t) (toNode s (parOf ancs none)) =
        some { nodes := m', rootId := t.key } ∧
      (s.sel = Selected.Selected → toggleTarget s.sel = Selected.Unselected) ∧
      (s.sel ≠ Selected.Selected → toggleTarget s.sel = Selected.Selected) ∧
      (∀ k n₀, k ∈ s.keys → (flatten t none).find k = some n₀ →
        m'.find k = some { n₀ with selectedState := toggleTarget s.sel }) ∧
      (∀ a ∈ ancs, ∃ n₀ sts, (flatten t none).find a.key = some n₀ ∧
        n₀.children.mapM (fun c => (m'.find c).map Node.selectedState) =
          some sts ∧
        m'.find a.key = some { n₀ with selectedState := aggSel sts }) ∧
      (∀ k, k ∉ s.keys → k ∉ ancs.map RTree.key →
        m'.find k = (flatten t none).find k) := by
  have htog1 : s.sel = Selected.Selected →
      toggleTarget s.sel = Selected.Unselected := by
    intro h
    rw [toggleTarget, if_pos h]
  have htog2 : s.sel ≠ Selected.Selected →
      toggleTarget s.sel = Selected.Selected := by
    intro h
    rw [toggleTarget, if_neg h]
  obtain ⟨m₁, hrun₁, hupd₁, hfr₁, hkl₁⟩ := modifyRec_flat_spec t s ancs hnd hp
    (fun n => { n with selectedState := toggleTarget (toNode s (parOf ancs none)).selectedState })
    (fun n => rfl)
  have hsome₁ : ∀ k ∈ t.keys, (m₁.find k).isSome := by
    intro k hk
    rw [find_isSome_iff, hkl₁, flatten_keyList]
    exact hk
  have e_key : (toNode s (parOf ancs none)).key = s.key := rfl
  have e_par : (toNode s (parOf ancs none)).parent = parOf ancs none := rfl
  have e_nodes : (toTreeState t).nodes = flatten t none := rfl
  cases ancs with
  | nil =>
      refine ⟨m₁, ?_, htog1, htog2, ?_, ?_, ?_⟩
      · rw [setSelected]
        simp only [e_key, e_par, e_nodes, hrun₁]
        rfl
      · intro k n₀ hk hfind
        have h1 := hupd₁ k hk
        rw [hfind, Option.map_some'] at h1
        exact h1
      · intro a ha
        cases ha
      · intro k h1 h2
        exact hfr₁ k h1
  | cons a rest =>
      obtain ⟨hmem, hpa⟩ := ancPath_cons hp
      have hfa : (flatten t none).find a.key =
          some (toNode a (parOf rest none)) := flatten_find hpa hnd none
      have hfuel : (a :: rest).length < (flatten t none).size + 1 := by
        have h1 := chain_length_lt hnd hp
        have h2 := flatten_length t none
        have h3 : NodeMap.size (flatten t none) = (flatten t none).length := rfl
        omega
      obtain ⟨m₂, hrun₂, hframe, hancs, hkl₂⟩ := walkUp_spec hnd hne (a :: rest)
        s hp ((flatten t none).size + 1) m₁ hfuel hsome₁
      have e2 : ancEntry (a :: rest) = some (toNode a (parOf rest none)) := rfl
      rw [e2] at hrun₂
      have hkeys := ancPath_anc_key_not_mem hp hnd
      refine ⟨m₂, ?_, htog1, htog2, ?_, hancs, ?_⟩
      · rw [setSelected]
        simp only [e_key, e_par, e_nodes, hrun₁]
        have e1 : parOf (a :: rest) none = some a.key := rfl
        simp only [e1, hfa, hrun₂]
        rfl
      · intro k n₀ hk hfind
        have hknot : k ∉ (a :: rest).map RTree.key := by
          intro hmem2
          obtain ⟨x, hx, hxk⟩ := List.mem_map.mp hmem2
          exact hkeys x hx (hxk ▸ hk)
        rw [hframe k hknot]
        have h1 := hupd₁ k hk
        rw [hfind, Option.map_some'] at h1
        exact h1
      · intro k h1 h2
        rw [hframe k h2]
        exact hfr₁ k h1

/-- Witness for C1: toggling the `Unselected` leaf `"a"` of the two-leaf
example tree succeeds. -/
theorem c1_witness :
    (setSelected (toTreeState exT) (toNode exLeafA (parOf [exT] none))).isSome
      = true := by
  obtain ⟨m', h, -⟩ := c1_setSelected_spec exT exLeafA [exT]
    (by rw [exT_keys]; decide) (by rw [exT_keys]; decide) exT_path
  rw [h]
  rfl

end TreeView
